import Mathlib

/-!
Shallow embedding of the open-addressing hash table of
`src/il/container/hash/HashMap.h` (InsideLoop), together with proofs about
its search / insert / erase / grow / iteration operations.

Modelling conventions:
* `il::int_t` (a 64-bit signed integer) is modelled as `Int` where the source
  stores it in a field or returns it, and as `Nat` for array indices and
  sizes that the source keeps non-negative.  Size bounds (`< 2 ^ 62` and the
  like) appear as hypotheses where the 64-bit width of the source matters.
* The backing `il::Array<KeyValue>` is a `List (KeyValue K V)`; the array's
  constructor default-constructs its elements, which `KeyValue`'s default
  constructor fills with the empty-sentinel key and a default value.
* The key policy `F` (a template parameter; its default implementation
  `HashFunction` is supplied by a collaborating header) is a record of the
  four capabilities the engine uses: `hash_value`, `is_equal`, `empty_key`,
  `tombstone_key`.
-/

namespace IL

/-- The key policy `F`: hashing, equality and the two reserved sentinel keys. -/
structure KeyPolicy (K : Type) where
  hash_value : K → Nat
  is_equal : K → K → Bool
  empty_key : K
  tombstone_key : K

/-- A policy is lawful when `is_equal` decides equality and the two sentinels
differ.  This is the contract §4.1 of the spec places on `F`. -/
structure LawfulPolicy {K : Type} (P : KeyPolicy K) : Prop where
  eq_iff : ∀ a b : K, P.is_equal a b = true ↔ a = b
  sentinels_ne : P.empty_key ≠ P.tombstone_key

/-- One slot of the table: `struct KeyValue { K key; V value; }`. -/
structure KeyValue (K V : Type) where
  key : K
  value : V
deriving DecidableEq, Repr

variable {K V : Type}

/-- The default constructor `KeyValue()`: `key = F::empty_key(); value = V{}`. -/
def emptySlot (P : KeyPolicy K) [Inhabited V] : KeyValue K V :=
  { key := P.empty_key, value := default }

/-- The table state: the slot array `bucket_` and the two counters. -/
structure HashMap (K V : Type) where
  bucket : List (KeyValue K V)
  nb_entries : Int
  nb_tombstones : Int
deriving DecidableEq

/-- Slot state Empty, derived by comparing the key with the empty sentinel. -/
def isEmptySlot (P : KeyPolicy K) (s : KeyValue K V) : Bool :=
  P.is_equal s.key P.empty_key

/-- Slot state Tombstone, derived by comparing the key with the tombstone
sentinel. -/
def isTombSlot (P : KeyPolicy K) (s : KeyValue K V) : Bool :=
  P.is_equal s.key P.tombstone_key

/-- Slot state Occupied: neither sentinel.  This is the test the source
repeats in `grow`, `begin` and the iterator. -/
def isOccupied (P : KeyPolicy K) (s : KeyValue K V) : Bool :=
  !(isEmptySlot P s) && !(isTombSlot P s)

/-- Read of `bucket_[j]` (in-bounds in every execution the source performs). -/
def slotAt (P : KeyPolicy K) [Inhabited V] (bucket : List (KeyValue K V))
    (j : Nat) : KeyValue K V :=
  bucket.getD j (emptySlot P)

/-- The loop of `HashMap::search`, lines 184-200 of the source.  The loop
counter `k < nb_bucket` is modelled by the remaining-iterations argument
(last); `i`, `i_tombstone` and `delta_i` are the loop state. -/
def searchLoop (P : KeyPolicy K) [Inhabited V] (bucket : List (KeyValue K V))
    (key : K) (n : Nat) : Nat → Int → Nat → Nat → Int
  | _, _, _, 0 => -(1 + (n : Int))
  | i, i_tombstone, delta_i, r + 1 =>
    if P.is_equal (slotAt P bucket i).key key then (i : Int)
    else if P.is_equal (slotAt P bucket i).key P.empty_key then
      if i_tombstone = -1 then -(1 + (i : Int)) else -(1 + i_tombstone)
    else
      searchLoop P bucket key n ((i + delta_i) &&& (n - 1))
        (if P.is_equal (slotAt P bucket i).key P.tombstone_key &&
            (i_tombstone == -1) then (i : Int) else i_tombstone)
        (delta_i + 1) r

/-- `HashMap::search` (without its two `IL_ASSERT_PRECOND` checks, which are
modelled separately in `searchChecked`). -/
def search (P : KeyPolicy K) [Inhabited V] (m : HashMap K V) (key : K) : Int :=
  let nb_bucket := m.bucket.length
  if nb_bucket = 0 then -(1 + (nb_bucket : Int))
  else
    searchLoop P m.bucket key nb_bucket
      (P.hash_value key &&& (nb_bucket - 1)) (-1) 1 nb_bucket

/-- `HashMap::found`: a search result is a hit iff it is non-negative. -/
def found (i : Int) : Bool :=
  decide (0 ≤ i)

/-- `HashMap::next_power_of_2`: bit-smearing on a 64-bit signed integer
(the `sizeof(il::int_t) == 8` branch is taken on the platforms the source
documents, so the `>> 32` stage is included). -/
def next_power_of_2 (i : Nat) : Nat :=
  let i1 := i ||| (i >>> 1)
  let i2 := i1 ||| (i1 >>> 2)
  let i3 := i2 ||| (i2 >>> 4)
  let i4 := i3 ||| (i3 >>> 8)
  let i5 := i4 ||| (i4 >>> 16)
  let i6 := i5 ||| (i5 >>> 32)
  i6 + 1

/-- `HashMap::nb_bucket`: `nb_entries == 0 ? 1 : next_power_of_2(3 * nb_entries / 2 + 1)`.
The source's `IL_ASSERT(i >= 0)` in `next_power_of_2` restricts the argument
to non-negative values, hence the `Int.toNat`. -/
def nb_bucket (nb_entries : Int) : Nat :=
  if nb_entries = 0 then 1 else next_power_of_2 (3 * nb_entries / 2 + 1).toNat

/-- The unconditional tail of `HashMap::insert(key, value, il::io, i)`:
`bucket_[i_local].key = key; bucket_[i_local].value = value; ++nb_entries_;`. -/
def insertWrite (m : HashMap K V) (key : K) (value : V) (i_local : Int) :
    HashMap K V :=
  { m with
    bucket := m.bucket.set i_local.toNat { key := key, value := value }
    nb_entries := m.nb_entries + 1 }

/-- The `insert(key, value)` call `grow` performs for each live slot of the
old storage: a fresh `search` followed by the write.  In the source this
`insert` could in principle recurse into a nested `grow`; the growth guard
`nb_entries_ >= bucket_.size()` is kept here verbatim, but since a nested
growth never happens in any call the source's `grow` makes (proved in
`grow_spec` below, because the new capacity is at least the number of live
slots being re-inserted), the guard's taken branch is modelled as returning
the table unchanged. -/
def growInsert (P : KeyPolicy K) [Inhabited V] (m : HashMap K V) (key : K)
    (value : V) : HashMap K V :=
  let i := search P m key
  if m.nb_entries ≥ (m.bucket.length : Int) then m
  else insertWrite m key value (-(1 + i))

/-- `HashMap::grow(n)`: move the storage out, allocate `n` default slots
(each `KeyValue()` — empty key, default value), reset both counters, and
re-insert every Occupied slot of the old storage.  The source's
`IL_ASSERT(n >= bucket_.size())` is a contract carried as a hypothesis by
the theorems below. -/
def grow (P : KeyPolicy K) [Inhabited V] (m : HashMap K V) (n : Nat) :
    HashMap K V :=
  m.bucket.foldl
    (fun acc slot =>
      if !(P.is_equal slot.key P.empty_key) &&
         !(P.is_equal slot.key P.tombstone_key) then
        growInsert P acc slot.key slot.value
      else acc)
    { bucket := List.replicate n (emptySlot P), nb_entries := 0,
      nb_tombstones := 0 }

/-- `HashMap::insert(key, value, il::io, i)` (without its
`IL_ASSERT_PRECOND(!found(i))`, modelled in `insertAtChecked`): decode the
insertion point, grow first if `nb_entries_ >= bucket_.size()` (re-deriving
the point by a fresh `search`), then write. -/
def insertAt (P : KeyPolicy K) [Inhabited V] (m : HashMap K V) (key : K)
    (value : V) (i : Int) : HashMap K V :=
  if m.nb_entries ≥ (m.bucket.length : Int) then
    let m' := grow P m (nb_bucket m.nb_entries)
    let j := search P m' key
    insertWrite m' key value (-(1 + j))
  else insertWrite m key value (-(1 + i))

/-- `HashMap::insert(key, value)`: search, then insert at the reported
position.  (The source types the `value` parameter with the key's type `K`;
the spec's §9 records this as a typographical defect and directs that the
value be typed `V`, which is done here.) -/
def insertKV (P : KeyPolicy K) [Inhabited V] (m : HashMap K V) (key : K)
    (value : V) : HashMap K V :=
  let i := search P m key
  insertAt P m key value i

/-- `HashMap::erase(i)`: overwrite the key with the tombstone sentinel,
reset the value to `V{}`, decrement `nb_entries_`, increment
`nb_tombstones_`. -/
def erase (P : KeyPolicy K) [Inhabited V] (m : HashMap K V) (i : Int) :
    HashMap K V :=
  { m with
    bucket := m.bucket.set i.toNat { key := P.tombstone_key, value := default }
    nb_entries := m.nb_entries - 1
    nb_tombstones := m.nb_tombstones + 1 }

/-- `HashMap::reserve(r)`: `grow(nb_bucket(r))`. -/
def reserve (P : KeyPolicy K) [Inhabited V] (m : HashMap K V) (r : Int) :
    HashMap K V :=
  grow P m (nb_bucket r)

/-- The default constructor `HashMap()`: no storage, both counters zero. -/
def mkHashMap : HashMap K V :=
  { bucket := [], nb_entries := 0, nb_tombstones := 0 }

/-- `HashMap(nb_entries)`: `nb_bucket(nb_entries)` default-constructed slots
(each with the empty-sentinel key and a default value), both counters zero. -/
def mkHashMapEntries (P : KeyPolicy K) [Inhabited V] (nb_entries : Int) :
    HashMap K V :=
  { bucket := List.replicate (nb_bucket nb_entries) (emptySlot P)
    nb_entries := 0, nb_tombstones := 0 }

/-- `HashMap::size()`. -/
def size (m : HashMap K V) : Int :=
  m.nb_entries

/-- `HashMap::capacity()`. -/
def capacity (m : HashMap K V) : Int :=
  (m.bucket.length : Int)

/-- `HashMap::key(i)`. -/
def keyAt (P : KeyPolicy K) [Inhabited V] (m : HashMap K V) (i : Int) : K :=
  (slotAt P m.bucket i.toNat).key

/-- `HashMap::value(i)`. -/
def valueAt (P : KeyPolicy K) [Inhabited V] (m : HashMap K V) (i : Int) : V :=
  (slotAt P m.bucket i.toNat).value

/-! ### The checked build

`IL_ASSERT` / `IL_ASSERT_PRECOND` live in `il/base.h`, which is not part of
the sources at hand.  Modelled from the spec: in a checked build a failed
assertion terminates execution with a diagnostic (spec §7); termination is
modelled as the `Option` value `none`.  The placement of each check below
copies the source of `HashMap.h` line by line. -/

/-- `search` including its two `IL_ASSERT_PRECOND` sentinel checks (source
lines 173-174), which run before any slot is read. -/
def searchChecked (P : KeyPolicy K) [Inhabited V] (m : HashMap K V) (key : K) :
    Option Int :=
  if P.is_equal key P.empty_key then none
  else if P.is_equal key P.tombstone_key then none
  else some (search P m key)

/-- `insert(key, value, il::io, i)` including its
`IL_ASSERT_PRECOND(!found(i))` (source line 212). -/
def insertAtChecked (P : KeyPolicy K) [Inhabited V] (m : HashMap K V) (key : K)
    (value : V) (i : Int) : Option (HashMap K V) :=
  if found i then none else some (insertAt P m key value i)

/-- `insert(key, value)` in the checked build: the `search` call checks the
sentinel preconditions, then `IL_ASSERT(!found(i))` rejects a duplicate key
(source line 228), all before any mutation. -/
def insertKVChecked (P : KeyPolicy K) [Inhabited V] (m : HashMap K V) (key : K)
    (value : V) : Option (HashMap K V) :=
  match searchChecked P m key with
  | none => none
  | some i => if found i then none else some (insertAt P m key value i)

/-- `erase(i)` in the checked build: the source body (lines 233-239) contains
no assertion at all, so the checked build never rejects an erase — it
mutates unconditionally. -/
def eraseChecked (P : KeyPolicy K) [Inhabited V] (m : HashMap K V) (i : Int) :
    Option (HashMap K V) :=
  some (erase P m i)

/-! ### Iteration -/

/-- `HashMapIterator::advance_past_empty_buckets`: starting at `pos`, skip
slots whose key equals either sentinel, stopping at the end bound.  A cursor
is modelled as its index into the slot array; `end()` is the index
`bucket.length`. -/
def advance_past_empty_buckets (P : KeyPolicy K) [Inhabited V]
    (bucket : List (KeyValue K V)) (pos : Nat) : Nat :=
  if h : pos < bucket.length ∧
      (P.is_equal (slotAt P bucket pos).key P.empty_key ||
       P.is_equal (slotAt P bucket pos).key P.tombstone_key) = true then
    advance_past_empty_buckets P bucket (pos + 1)
  else pos
termination_by bucket.length - pos
decreasing_by omega

/-- `HashMapIterator::operator++`: step one slot, then skip past
empty/tombstone slots. -/
def iterNext (P : KeyPolicy K) [Inhabited V] (bucket : List (KeyValue K V))
    (pos : Nat) : Nat :=
  advance_past_empty_buckets P bucket (pos + 1)

/-- The scan inside `HashMap::begin` (source lines 326-334).  The source
scans with `while (true)`, reading `bucket_[i]` unboundedly; the scan is
bounded here at the storage length, which is never reached when
`nb_entries_` is a correct count of a non-zero number of occupied slots. -/
def beginScan (P : KeyPolicy K) [Inhabited V] (bucket : List (KeyValue K V))
    (i : Nat) : Nat :=
  if h : i < bucket.length then
    if !(P.is_equal (slotAt P bucket i).key P.empty_key) &&
       !(P.is_equal (slotAt P bucket i).key P.tombstone_key) then i
    else beginScan P bucket (i + 1)
  else bucket.length
termination_by bucket.length - i
decreasing_by omega

/-- `HashMap::begin`: `end()` when the map is empty, otherwise the first
Occupied slot scanning from index 0. -/
def beginIdx (P : KeyPolicy K) [Inhabited V] (m : HashMap K V) : Nat :=
  if m.nb_entries == 0 then m.bucket.length
  else beginScan P m.bucket 0

/-- The slot indices visited by repeatedly applying `operator++` from a
cursor until `end()`.  The extra fuel argument makes the recursion
structural; `advance_past_empty_buckets` moves strictly forward
(`advance_ge` below), so any fuel of at least `bucket.length - pos` steps
reproduces the loop exactly. -/
def collectFrom (P : KeyPolicy K) [Inhabited V] (bucket : List (KeyValue K V)) :
    Nat → Nat → List Nat
  | _, 0 => []
  | pos, fuel + 1 =>
    if pos < bucket.length then
      pos :: collectFrom P bucket
        (advance_past_empty_buckets P bucket (pos + 1)) fuel
    else []

/-- All slot indices yielded by iterating from `begin()` to `end()`. -/
def iterList (P : KeyPolicy K) [Inhabited V] (m : HashMap K V) : List Nat :=
  collectFrom P m.bucket (beginIdx P m) (m.bucket.length + 1)

/-! ### The probe sequence

`search` advances by `i += delta_i; ++delta_i; i &= (nb_bucket - 1)` from
the masked hash.  `probeAux`/`probeIdx` compute the slot index reached after
`k` such advances. -/

def probeAux (n : Nat) : Nat → Nat → Nat → Nat
  | i, _, 0 => i
  | i, delta_i, k + 1 => probeAux n ((i + delta_i) &&& (n - 1)) (delta_i + 1) k

/-- The index probed `k` steps after the starting index. -/
def probeIdx (n start k : Nat) : Nat :=
  probeAux n start 1 k

/-- The starting index of `key`'s probe sequence: `hash_value(key) & (n-1)`. -/
def homeIdx (P : KeyPolicy K) (n : Nat) (key : K) : Nat :=
  P.hash_value key &&& (n - 1)

/-! ### The table invariant -/

/-- A key that is neither sentinel (the §4.1 caller obligation). -/
def NonSentinel (P : KeyPolicy K) (key : K) : Prop :=
  key ≠ P.empty_key ∧ key ≠ P.tombstone_key

/-- The representation invariant of reachable tables:
* the capacity is 0 or a power of two representable in 64 bits;
* `nb_entries_` counts the Occupied slots;
* Occupied keys are pairwise distinct;
* every Occupied slot lies on the probe sequence of its own key, with no
  Empty slot strictly earlier on that sequence (so `search` can reach it).

(`nb_tombstones_` is deliberately not tied to the number of Tombstone slots:
the source's `insert` does not decrement it when it reuses a Tombstone slot,
so that correspondence does not hold on reachable states.) -/
def Wf (P : KeyPolicy K) [Inhabited V] (m : HashMap K V) : Prop :=
  (m.bucket.length = 0 ∨ ∃ e < 64, m.bucket.length = 2 ^ e) ∧
  m.nb_entries = ((m.bucket.filter (fun s => isOccupied P s)).length : Int) ∧
  (∀ j1, j1 < m.bucket.length → ∀ j2, j2 < m.bucket.length →
    (j1 ≠ j2 ∧ isOccupied P (slotAt P m.bucket j1) = true ∧
      isOccupied P (slotAt P m.bucket j2) = true) →
    (slotAt P m.bucket j1).key ≠ (slotAt P m.bucket j2).key) ∧
  (∀ j, j < m.bucket.length → isOccupied P (slotAt P m.bucket j) = true →
    ∃ t, t < m.bucket.length ∧
      probeIdx m.bucket.length
        (homeIdx P m.bucket.length (slotAt P m.bucket j).key) t = j ∧
      ∀ s, s < t →
        isEmptySlot P (slotAt P m.bucket
          (probeIdx m.bucket.length
            (homeIdx P m.bucket.length (slotAt P m.bucket j).key) s)) = false)

instance (P : KeyPolicy K) [Inhabited V] [DecidableEq K] (m : HashMap K V) :
    Decidable (Wf P m) := by
  unfold Wf
  infer_instance

instance (P : KeyPolicy K) [DecidableEq K] (key : K) :
    Decidable (NonSentinel P key) := by
  unfold NonSentinel
  infer_instance

/-! ### A concrete policy for witnesses -/

/-- A concrete integer key policy used to evaluate the development on
explicit inputs: identity-like hash, `==` equality, sentinels `-1`, `-2`. -/
def intPolicy : KeyPolicy Int :=
  { hash_value := Int.toNat, is_equal := fun a b => a == b,
    empty_key := -1, tombstone_key := -2 }

/-- A whole client session: `insert(key, value)` for each pair in turn,
starting from the default-constructed map. -/
def insertAll (P : KeyPolicy K) [Inhabited V] (kvs : List (K × V)) :
    HashMap K V :=
  kvs.foldl (fun acc kv => insertKV P acc kv.1 kv.2) mkHashMap

/-- Insert a key, then erase it at the position `search` reports — the
client-level sequence that leaves one more Tombstone behind. -/
def insertErase (P : KeyPolicy K) [Inhabited V] (m : HashMap K V) (k : K)
    (v : V) : HashMap K V :=
  erase P (insertKV P m k v) (search P (insertKV P m k v) k)

/-- A capacity-1 table whose only slot is a Tombstone: insert one key into a
`HashMap(0)` table, then erase it. -/
def tombSaturated1 : HashMap Int Int :=
  insertErase intPolicy (mkHashMapEntries intPolicy 0) 5 10

/-- A capacity-4 table after four insert/erase cycles (all keys hashing to
bucket 0) and one final insert that reuses a Tombstone slot. -/
def tombOverCount : HashMap Int Int :=
  insertKV intPolicy
    (insertErase intPolicy
      (insertErase intPolicy
        (insertErase intPolicy
          (insertErase intPolicy (mkHashMapEntries intPolicy 1) 4 0)
          8 0)
        12 0)
      16 0)
    20 99

/-- A small capacity-4 table: a Tombstone in bucket 0 and the key 4 (whose
home bucket is 0) stored one probe step further, at slot 1. -/
def probeDemoTable : HashMap Int Int :=
  { bucket := [⟨-2, 0⟩, ⟨4, 1⟩, ⟨-1, 0⟩, ⟨-1, 0⟩],
    nb_entries := 1, nb_tombstones := 1 }

/-- A capacity-4 table holding one live pair `(4, 1)` in its home bucket 0,
one Tombstone at slot 1, and two Empty slots. -/
def growDemo : HashMap Int Int :=
  { bucket := [⟨4, 1⟩, ⟨-2, 0⟩, ⟨-1, 0⟩, ⟨-1, 0⟩],
    nb_entries := 1, nb_tombstones := 1 }

/-- A capacity-2 table with the pair `(3, 7)` live in slot 0. -/
def eraseDemo : HashMap Int Int :=
  { bucket := [⟨3, 7⟩, ⟨-1, 0⟩], nb_entries := 1, nb_tombstones := 0 }

/-- A well-formed capacity-4 table with two live pairs, one Tombstone and
one Empty slot, for exercising the iterator. -/
def iterDemo : HashMap Int Int :=
  { bucket := [⟨-1, 0⟩, ⟨5, 2⟩, ⟨-2, 0⟩, ⟨3, 3⟩],
    nb_entries := 2, nb_tombstones := 1 }

theorem intPolicy_lawful : LawfulPolicy intPolicy := by
  constructor
  · intro a b
    simp [intPolicy]
  · decide

/-! ### Bit manipulation: `x & (2^e - 1)` is `x mod 2^e`, and
`next_power_of_2` returns the least power of two above its argument. -/

theorem land_two_pow_sub_one (x e : Nat) : x &&& (2 ^ e - 1) = x % 2 ^ e := by
  apply Nat.eq_of_testBit_eq
  intro i
  simp [Nat.testBit_land, Nat.testBit_mod_two_pow, Nat.testBit_two_pow_sub_one,
    Bool.and_comm]

/-- One smearing stage `y | (y >> s)` widens the window of source bits each
result bit sees from `w` to `w + s`, provided `s ≤ w`. -/
theorem orShift_window (x y w s : Nat) (hs : s ≤ w)
    (hy : ∀ j, y.testBit j = decide (∃ k, k < w ∧ x.testBit (j + k) = true)) :
    ∀ j, (y ||| (y >>> s)).testBit j =
      decide (∃ k, k < w + s ∧ x.testBit (j + k) = true) := by
  intro j
  rw [Nat.testBit_lor, Nat.testBit_shiftRight, hy, hy, ← Bool.decide_or,
    decide_eq_decide]
  constructor
  · rintro (⟨k, hk, hb⟩ | ⟨k, hk, hb⟩)
    · exact ⟨k, by omega, hb⟩
    · refine ⟨s + k, by omega, ?_⟩
      rwa [show j + (s + k) = s + j + k by omega]
  · rintro ⟨k, hk, hb⟩
    by_cases hks : k < w
    · exact Or.inl ⟨k, hks, hb⟩
    · refine Or.inr ⟨k - s, by omega, ?_⟩
      rwa [show s + j + (k - s) = j + k by omega]

/-- The top bit of a non-zero number is set. -/
theorem testBit_size_pred (x : Nat) (hx : x ≠ 0) :
    x.testBit (x.size - 1) = true := by
  have hpos : 0 < x.size := Nat.size_pos.mpr (Nat.pos_of_ne_zero hx)
  have hlow : 2 ^ (x.size - 1) ≤ x := Nat.lt_size.mp (by omega)
  have hhigh : x < 2 ^ x.size := Nat.lt_size_self x
  have hdiv : x / 2 ^ (x.size - 1) = 1 := by
    have h1 : 1 ≤ x / 2 ^ (x.size - 1) :=
      (Nat.le_div_iff_mul_le (Nat.pos_pow_of_pos _ (by norm_num))).mpr
        (by simpa using hlow)
    have h2 : x / 2 ^ (x.size - 1) < 2 := by
      apply Nat.div_lt_iff_lt_mul (Nat.pos_pow_of_pos _ (by norm_num)) |>.mpr
      calc x < 2 ^ x.size := hhigh
        _ = 2 * 2 ^ (x.size - 1) := by
          rw [← pow_succ']
          congr 1
          omega
    omega
  rw [Nat.testBit_to_div_mod, hdiv]
  decide

theorem next_power_of_2_eq (i : Nat) (h : i < 2 ^ 64) :
    next_power_of_2 i = 2 ^ i.size := by
  rcases Nat.eq_zero_or_pos i with hi | hi
  · subst hi
    rw [Nat.size_zero]
    decide
  have hsize : i.size ≤ 64 := Nat.size_le.mpr h
  have h0 : ∀ j, i.testBit j =
      decide (∃ k, k < (1 : Nat) ∧ i.testBit (j + k) = true) := by
    intro j
    rcases hb : i.testBit j with _ | _
    · symm
      simp only [decide_eq_false_iff_not]
      rintro ⟨k, hk, hbk⟩
      have hk0 : k = 0 := by omega
      subst hk0
      simp only [Nat.add_zero] at hbk
      rw [hb] at hbk
      exact Bool.false_ne_true hbk
    · symm
      simp only [decide_eq_true_eq]
      exact ⟨0, by omega, by simpa using hb⟩
  have h1 := orShift_window i i 1 1 le_rfl h0
  have h2 := orShift_window i _ 2 2 le_rfl h1
  have h3 := orShift_window i _ 4 4 le_rfl h2
  have h4 := orShift_window i _ 8 8 le_rfl h3
  have h5 := orShift_window i _ 16 16 le_rfl h4
  have h6 := orShift_window i _ 32 32 le_rfl h5
  have key : ∀ y, (∀ j, y.testBit j =
      decide (∃ k, k < (64 : Nat) ∧ i.testBit (j + k) = true)) →
      y = 2 ^ i.size - 1 := by
    intro y hy
    apply Nat.eq_of_testBit_eq
    intro j
    rw [hy, Nat.testBit_two_pow_sub_one, decide_eq_decide]
    constructor
    · rintro ⟨k, hk, hb⟩
      by_contra hj
      push_neg at hj
      have hlt : i < 2 ^ (j + k) :=
        lt_of_lt_of_le (Nat.lt_size_self i)
          (Nat.pow_le_pow_right (by norm_num) (by omega))
      rw [Nat.testBit_lt_two_pow hlt] at hb
      exact Bool.false_ne_true hb
    · intro hj
      have hpos : 0 < i.size := Nat.size_pos.mpr hi
      refine ⟨i.size - 1 - j, by omega, ?_⟩
      rw [show j + (i.size - 1 - j) = i.size - 1 by omega]
      exact testBit_size_pred i (by omega)
  have hE := key _ h6
  have hone : 1 ≤ 2 ^ i.size := Nat.one_le_two_pow
  simp only [next_power_of_2]
  omega

theorem next_power_of_2_gt (i : Nat) (h : i < 2 ^ 64) : i < next_power_of_2 i := by
  rw [next_power_of_2_eq i h]
  exact Nat.lt_size_self i

theorem nb_bucket_toNat_lt (c : Int) (h0 : 0 ≤ c) (h : c < 2 ^ 62) :
    (3 * c / 2 + 1).toNat < 2 ^ 63 := by
  omega

theorem nb_bucket_pow (c : Int) (h0 : 0 ≤ c) (h : c < 2 ^ 62) :
    ∃ e, e < 64 ∧ nb_bucket c = 2 ^ e := by
  unfold nb_bucket
  by_cases hc : c = 0
  · exact ⟨0, by omega, by simp [hc]⟩
  · have hlt := nb_bucket_toNat_lt c h0 h
    rw [if_neg hc, next_power_of_2_eq _ (by omega)]
    exact ⟨(3 * c / 2 + 1).toNat.size, by
      have := Nat.size_le.mpr hlt
      omega, rfl⟩

theorem nb_bucket_gt (c : Int) (h0 : 0 ≤ c) (h : c < 2 ^ 62) :
    c < (nb_bucket c : Int) := by
  unfold nb_bucket
  by_cases hc : c = 0
  · simp [hc]
  · have hlt := nb_bucket_toNat_lt c h0 h
    rw [if_neg hc]
    have hgt := next_power_of_2_gt (3 * c / 2 + 1).toNat (by omega)
    have harg : c < ((3 * c / 2 + 1).toNat : Int) := by omega
    calc c < ((3 * c / 2 + 1).toNat : Int) := harg
      _ < (next_power_of_2 (3 * c / 2 + 1).toNat : Int) := by exact_mod_cast hgt

/-! ### The triangular probe sequence visits every slot of a power-of-two
table exactly once in the first `n` probes. -/

theorem probeAux_closed (e : Nat) :
    ∀ (k i d : Nat), i < 2 ^ e →
      probeAux (2 ^ e) i d k = (i + (k * d + k * (k - 1) / 2)) % 2 ^ e := by
  intro k
  induction k with
  | zero =>
    intro i d hi
    simpa [probeAux] using (Nat.mod_eq_of_lt hi).symm
  | succ n ih =>
    intro i d hi
    have hpos : 0 < 2 ^ e := Nat.pos_pow_of_pos e (by norm_num)
    rw [probeAux, land_two_pow_sub_one,
      ih ((i + d) % 2 ^ e) (d + 1) (Nat.mod_lt _ hpos), Nat.mod_add_mod]
    congr 1
    have harith : (n + 1) * n / 2 = n * (n - 1) / 2 + n := by
      have hprod : (n + 1) * n = n * (n - 1) + 2 * n := by
        cases n with
        | zero => rfl
        | succ m =>
          simp only [Nat.succ_sub_one]
          ring
      rw [hprod, Nat.add_mul_div_left _ _ (by norm_num : (0:Nat) < 2)]
    have hsub : n + 1 - 1 = n := rfl
    rw [hsub]
    have h1 : n * (d + 1) = n * d + n := by ring
    have h2 : (n + 1) * d = n * d + d := by ring
    omega

theorem probeIdx_closed (e : Nat) (s k : Nat) (hs : s < 2 ^ e) :
    probeIdx (2 ^ e) s k = (s + k * (k + 1) / 2) % 2 ^ e := by
  rw [probeIdx, probeAux_closed e k s 1 hs]
  congr 2
  have hprod : k * (k + 1) = k * (k - 1) + 2 * k := by
    cases k with
    | zero => rfl
    | succ m =>
      simp only [Nat.succ_sub_one]
      ring
  rw [hprod, Nat.add_mul_div_left _ _ (by norm_num : (0:Nat) < 2)]
  omega

theorem probeIdx_lt (e s k : Nat) (hs : s < 2 ^ e) :
    probeIdx (2 ^ e) s k < 2 ^ e := by
  rw [probeIdx_closed e s k hs]
  exact Nat.mod_lt _ (Nat.pos_pow_of_pos e (by norm_num))

theorem probeAux_succ (n : Nat) :
    ∀ k i d, probeAux n i d (k + 1) = (probeAux n i d k + (d + k)) &&& (n - 1) := by
  intro k
  induction k with
  | zero =>
    intro i d
    simp [probeAux]
  | succ m ih =>
    intro i d
    rw [show m + 1 + 1 = (m + 1) + 1 from rfl, probeAux, ih, ← probeAux]
    congr 2
    omega

theorem probeIdx_succ (n s k : Nat) :
    probeIdx n s (k + 1) = (probeIdx n s k + (1 + k)) &&& (n - 1) :=
  probeAux_succ n k s 1

/-- Distinct probe counters below `2^e` reach distinct slots. -/
theorem probeIdx_inj (e s : Nat) (hs : s < 2 ^ e) :
    ∀ a b, a < 2 ^ e → b < 2 ^ e →
      probeIdx (2 ^ e) s a = probeIdx (2 ^ e) s b → a = b := by
  have main : ∀ a b, a ≤ b → b < 2 ^ e →
      probeIdx (2 ^ e) s a = probeIdx (2 ^ e) s b → a = b := by
    intro a b hab hb heq
    by_contra hne
    have hd : 0 < b - a := by omega
    rw [probeIdx_closed e s a hs, probeIdx_closed e s b hs] at heq
    have hmod : a * (a + 1) / 2 ≡ b * (b + 1) / 2 [MOD 2 ^ e] :=
      Nat.ModEq.add_left_cancel' s heq
    have hTle : a * (a + 1) / 2 ≤ b * (b + 1) / 2 :=
      Nat.div_le_div_right (Nat.mul_le_mul hab (by omega))
    have hdvd : 2 ^ e ∣ b * (b + 1) / 2 - a * (a + 1) / 2 :=
      (Nat.modEq_iff_dvd' hTle).mp hmod
    have h2a : 2 * (a * (a + 1) / 2) = a * (a + 1) :=
      Nat.mul_div_cancel' (Nat.even_mul_succ_self a).two_dvd
    have h2b : 2 * (b * (b + 1) / 2) = b * (b + 1) :=
      Nat.mul_div_cancel' (Nat.even_mul_succ_self b).two_dvd
    have hexp : b * (b + 1) = a * (a + 1) + (b - a) * (a + b + 1) := by
      have hb' : b = a + (b - a) := by omega
      rw [hb']
      ring_nf
      rw [show a + (b - a) - a = b - a by omega]
      ring
    have h2D : 2 * (b * (b + 1) / 2 - a * (a + 1) / 2) = (b - a) * (a + b + 1) := by
      omega
    have hdvd2 : 2 ^ (e + 1) ∣ (b - a) * (a + b + 1) := by
      rw [← h2D, pow_succ, mul_comm (2 ^ e) 2]
      exact Nat.mul_dvd_mul_left 2 hdvd
    rcases Nat.even_or_odd (b - a) with hev | hod
    · have hodds : Odd (a + b + 1) := by
        rcases hev with ⟨x, hx⟩
        exact ⟨a + x, by omega⟩
      have hcop : Nat.Coprime (2 ^ (e + 1)) (a + b + 1) :=
        Nat.Coprime.pow_left _ (Nat.coprime_two_left.mpr hodds)
      have : 2 ^ (e + 1) ∣ b - a := hcop.dvd_of_dvd_mul_right hdvd2
      have hle := Nat.le_of_dvd hd this
      have : b - a < 2 ^ (e + 1) := by
        have : 2 ^ e < 2 ^ (e + 1) := by
          rw [pow_succ]
          omega
        omega
      omega
    · have hcop : Nat.Coprime (2 ^ (e + 1)) (b - a) :=
        Nat.Coprime.pow_left _ (Nat.coprime_two_left.mpr hod)
      have hdvd3 : 2 ^ (e + 1) ∣ a + b + 1 := hcop.dvd_of_dvd_mul_left hdvd2
      have hle := Nat.le_of_dvd (by omega) hdvd3
      have hbound : a + b + 1 < 2 ^ (e + 1) := by
        have : 2 ^ (e + 1) = 2 ^ e + 2 ^ e := by
          rw [pow_succ]
          omega
        omega
      omega
  intro a b ha hb heq
  rcases le_total a b with h | h
  · exact main a b h hb heq
  · exact (main b a h ha heq.symm).symm

/-- Every slot is reached by some probe counter below `2^e`. -/
theorem probeIdx_surj (e s : Nat) (hs : s < 2 ^ e) :
    ∀ j, j < 2 ^ e → ∃ k, k < 2 ^ e ∧ probeIdx (2 ^ e) s k = j := by
  intro j hj
  classical
  have hinj : Set.InjOn (probeIdx (2 ^ e) s) (Finset.range (2 ^ e)) := by
    intro a ha b hb heq
    exact probeIdx_inj e s hs a b (Finset.mem_range.mp ha) (Finset.mem_range.mp hb) heq
  have hsub : (Finset.range (2 ^ e)).image (probeIdx (2 ^ e) s) ⊆
      Finset.range (2 ^ e) := by
    intro x hx
    rcases Finset.mem_image.mp hx with ⟨k, _, hk⟩
    exact Finset.mem_range.mpr (hk ▸ probeIdx_lt e s k hs)
  have hcard : ((Finset.range (2 ^ e)).image (probeIdx (2 ^ e) s)).card =
      (Finset.range (2 ^ e)).card := Finset.card_image_of_injOn hinj
  have heq : (Finset.range (2 ^ e)).image (probeIdx (2 ^ e) s) =
      Finset.range (2 ^ e) :=
    Finset.eq_of_subset_of_card_le hsub (by omega)
  have : j ∈ (Finset.range (2 ^ e)).image (probeIdx (2 ^ e) s) := by
    rw [heq]
    exact Finset.mem_range.mpr hj
  rcases Finset.mem_image.mp this with ⟨k, hk, hkj⟩
  exact ⟨k, Finset.mem_range.mp hk, hkj⟩

theorem homeIdx_lt (P : KeyPolicy K) (e : Nat) (key : K) :
    homeIdx P (2 ^ e) key < 2 ^ e := by
  rw [homeIdx, land_two_pow_sub_one]
  exact Nat.mod_lt _ (Nat.pos_pow_of_pos e (by norm_num))

/-! ### Characterizing `search` along the probe sequence -/

theorem searchLoop_succ (P : KeyPolicy K) [Inhabited V]
    (bucket : List (KeyValue K V)) (key : K) (n i : Nat) (iT : Int)
    (d r : Nat) :
    searchLoop P bucket key n i iT d (r + 1) =
      if P.is_equal (slotAt P bucket i).key key then (i : Int)
      else if P.is_equal (slotAt P bucket i).key P.empty_key then
        if iT = -1 then -(1 + (i : Int)) else -(1 + iT)
      else searchLoop P bucket key n ((i + d) &&& (n - 1))
        (if P.is_equal (slotAt P bucket i).key P.tombstone_key && (iT == -1)
         then (i : Int) else iT) (d + 1) r := rfl

theorem searchLoop_zero (P : KeyPolicy K) [Inhabited V]
    (bucket : List (KeyValue K V)) (key : K) (n i : Nat) (iT : Int) (d : Nat) :
    searchLoop P bucket key n i iT d 0 = -(1 + (n : Int)) := rfl

/-- If the slot `t` steps along the probe sequence holds the searched key and
no earlier probe hits a match or an Empty slot, the loop started at step `c`
returns the slot's index, whatever tombstone bookmark it carries. -/
theorem searchLoop_found_aux (P : KeyPolicy K) [Inhabited V]
    (L : LawfulPolicy P) (bucket : List (KeyValue K V)) (key : K) (e : Nat)
    (start t : Nat) (ht : t < 2 ^ e)
    (hmatch : (slotAt P bucket (probeIdx (2 ^ e) start t)).key = key)
    (hpre : ∀ s, s < t →
      (slotAt P bucket (probeIdx (2 ^ e) start s)).key ≠ key ∧
      isEmptySlot P (slotAt P bucket (probeIdx (2 ^ e) start s)) = false) :
    ∀ d c, c + d = t → ∀ iT,
      searchLoop P bucket key (2 ^ e) (probeIdx (2 ^ e) start c) iT (c + 1)
        (2 ^ e - c) = (probeIdx (2 ^ e) start t : Int) := by
  intro d
  induction d with
  | zero =>
    intro c hc iT
    have hct : c = t := by omega
    subst hct
    have hfuel : 2 ^ e - c = (2 ^ e - c - 1) + 1 := by omega
    rw [hfuel, searchLoop_succ, if_pos ((L.eq_iff _ _).mpr hmatch)]
  | succ d ih =>
    intro c hc iT
    have hct : c < t := by omega
    have hb1 : P.is_equal (slotAt P bucket (probeIdx (2 ^ e) start c)).key key
        = false :=
      Bool.eq_false_iff.mpr (fun h => (hpre c hct).1 ((L.eq_iff _ _).mp h))
    have hb2 : P.is_equal (slotAt P bucket (probeIdx (2 ^ e) start c)).key
        P.empty_key = false := (hpre c hct).2
    have hfuel : 2 ^ e - c = (2 ^ e - (c + 1)) + 1 := by omega
    rw [hfuel, searchLoop_succ, hb1, hb2]
    simp only [Bool.false_eq_true, if_false]
    have hidx : (probeIdx (2 ^ e) start c + (c + 1)) &&& (2 ^ e - 1) =
        probeIdx (2 ^ e) start (c + 1) := by
      rw [probeIdx_succ, Nat.add_comm 1 c]
    rw [hidx]
    exact ih (c + 1) (by omega) _

/-- If the probe sequence reaches an Empty slot at step `t`, with no earlier
match, Empty slot, or Tombstone, the loop reports not-found pointing at the
Empty slot. -/
theorem searchLoop_notfound_aux (P : KeyPolicy K) [Inhabited V]
    (L : LawfulPolicy P) (bucket : List (KeyValue K V)) (key : K) (e : Nat)
    (start t : Nat) (ht : t < 2 ^ e) (hkey : key ≠ P.empty_key)
    (hempty : isEmptySlot P (slotAt P bucket (probeIdx (2 ^ e) start t)) = true)
    (hpre : ∀ s, s < t →
      (slotAt P bucket (probeIdx (2 ^ e) start s)).key ≠ key ∧
      isEmptySlot P (slotAt P bucket (probeIdx (2 ^ e) start s)) = false)
    (hnotomb : ∀ s, s < t →
      isTombSlot P (slotAt P bucket (probeIdx (2 ^ e) start s)) = false) :
    ∀ d c, c + d = t →
      searchLoop P bucket key (2 ^ e) (probeIdx (2 ^ e) start c) (-1) (c + 1)
        (2 ^ e - c) = -(1 + (probeIdx (2 ^ e) start t : Int)) := by
  intro d
  induction d with
  | zero =>
    intro c hc
    have hct : c = t := by omega
    subst hct
    have hempty' : P.is_equal
        (slotAt P bucket (probeIdx (2 ^ e) start c)).key P.empty_key = true :=
      hempty
    have hb1 : P.is_equal (slotAt P bucket (probeIdx (2 ^ e) start c)).key key
        = false := by
      apply Bool.eq_false_iff.mpr
      intro h
      have hsk := (L.eq_iff _ _).mp h
      have hse := (L.eq_iff _ _).mp hempty'
      exact hkey (by rw [← hsk, hse])
    have hfuel : 2 ^ e - c = (2 ^ e - c - 1) + 1 := by omega
    rw [hfuel, searchLoop_succ, hb1]
    simp only [Bool.false_eq_true, if_false]
    rw [if_pos hempty']
    simp
  | succ d ih =>
    intro c hc
    have hct : c < t := by omega
    have hb1 : P.is_equal (slotAt P bucket (probeIdx (2 ^ e) start c)).key key
        = false :=
      Bool.eq_false_iff.mpr (fun h => (hpre c hct).1 ((L.eq_iff _ _).mp h))
    have hb2 : P.is_equal (slotAt P bucket (probeIdx (2 ^ e) start c)).key
        P.empty_key = false := (hpre c hct).2
    have hb3 : P.is_equal (slotAt P bucket (probeIdx (2 ^ e) start c)).key
        P.tombstone_key = false := hnotomb c hct
    have hfuel : 2 ^ e - c = (2 ^ e - (c + 1)) + 1 := by omega
    rw [hfuel, searchLoop_succ, hb1, hb2, hb3]
    simp only [Bool.false_eq_true, if_false, Bool.false_and]
    have hidx : (probeIdx (2 ^ e) start c + (c + 1)) &&& (2 ^ e - 1) =
        probeIdx (2 ^ e) start (c + 1) := by
      rw [probeIdx_succ, Nat.add_comm 1 c]
    rw [hidx]
    exact ih (c + 1) (by omega)

/-- If the probe sequence reaches an Empty slot at step `t` having passed a
first Tombstone at step `t0`, the loop reports not-found pointing at the
Tombstone slot. -/
theorem searchLoop_tomb_aux (P : KeyPolicy K) [Inhabited V]
    (L : LawfulPolicy P) (bucket : List (KeyValue K V)) (key : K) (e : Nat)
    (start t t0 : Nat) (ht : t < 2 ^ e) (ht0 : t0 < t)
    (hkey : key ≠ P.empty_key)
    (hempty : isEmptySlot P (slotAt P bucket (probeIdx (2 ^ e) start t)) = true)
    (htomb : isTombSlot P (slotAt P bucket (probeIdx (2 ^ e) start t0)) = true)
    (hfirst : ∀ s, s < t0 →
      isTombSlot P (slotAt P bucket (probeIdx (2 ^ e) start s)) = false)
    (hpre : ∀ s, s < t →
      (slotAt P bucket (probeIdx (2 ^ e) start s)).key ≠ key ∧
      isEmptySlot P (slotAt P bucket (probeIdx (2 ^ e) start s)) = false) :
    ∀ d c iT, c + d = t →
      ((c ≤ t0 ∧ iT = -1) ∨
        (t0 < c ∧ iT = (probeIdx (2 ^ e) start t0 : Int))) →
      searchLoop P bucket key (2 ^ e) (probeIdx (2 ^ e) start c) iT (c + 1)
        (2 ^ e - c) = -(1 + (probeIdx (2 ^ e) start t0 : Int)) := by
  intro d
  induction d with
  | zero =>
    intro c iT hc hinv
    have hct : c = t := by omega
    subst hct
    rcases hinv with ⟨hle, _⟩ | ⟨hgt, hiT⟩
    · omega
    have hempty' : P.is_equal
        (slotAt P bucket (probeIdx (2 ^ e) start c)).key P.empty_key = true :=
      hempty
    have hb1 : P.is_equal (slotAt P bucket (probeIdx (2 ^ e) start c)).key key
        = false := by
      apply Bool.eq_false_iff.mpr
      intro h
      have hsk := (L.eq_iff _ _).mp h
      have hse := (L.eq_iff _ _).mp hempty'
      exact hkey (by rw [← hsk, hse])
    have hfuel : 2 ^ e - c = (2 ^ e - c - 1) + 1 := by omega
    rw [hfuel, searchLoop_succ, hb1]
    simp only [Bool.false_eq_true, if_false]
    rw [if_pos hempty', hiT, if_neg (by omega)]
  | succ d ih =>
    intro c iT hc hinv
    have hct : c < t := by omega
    have hb1 : P.is_equal (slotAt P bucket (probeIdx (2 ^ e) start c)).key key
        = false :=
      Bool.eq_false_iff.mpr (fun h => (hpre c hct).1 ((L.eq_iff _ _).mp h))
    have hb2 : P.is_equal (slotAt P bucket (probeIdx (2 ^ e) start c)).key
        P.empty_key = false := (hpre c hct).2
    have hfuel : 2 ^ e - c = (2 ^ e - (c + 1)) + 1 := by omega
    rw [hfuel, searchLoop_succ, hb1, hb2]
    simp only [Bool.false_eq_true, if_false]
    have hidx : (probeIdx (2 ^ e) start c + (c + 1)) &&& (2 ^ e - 1) =
        probeIdx (2 ^ e) start (c + 1) := by
      rw [probeIdx_succ, Nat.add_comm 1 c]
    rw [hidx]
    rcases hinv with ⟨hle, hiT⟩ | ⟨hgt, hiT⟩
    · rcases Nat.lt_or_ge c t0 with hlt | hge
      · have hb3 : P.is_equal (slotAt P bucket (probeIdx (2 ^ e) start c)).key
            P.tombstone_key = false := hfirst c hlt
        rw [hb3]
        simp only [Bool.false_and, Bool.false_eq_true, if_false]
        exact ih (c + 1) iT (by omega) (Or.inl ⟨by omega, hiT⟩)
      · have hc0 : c = t0 := by omega
        subst hc0
        have htomb' : P.is_equal
            (slotAt P bucket (probeIdx (2 ^ e) start c)).key P.tombstone_key
            = true := htomb
        rw [hiT, htomb']
        simp only [Bool.true_and]
        have hbeq : ((-1 : Int) == (-1 : Int)) = true := by decide
        rw [hbeq, if_pos rfl]
        exact ih (c + 1) _ (by omega) (Or.inr ⟨by omega, rfl⟩)
    · have hbeq : (iT == (-1 : Int)) = false := by
        rw [hiT]
        simp only [beq_eq_false_iff_ne, ne_eq]
        intro hcontra
        omega
      rw [hbeq]
      simp only [Bool.and_false, Bool.false_eq_true, if_false]
      exact ih (c + 1) iT (by omega) (Or.inr ⟨by omega, hiT⟩)


/-! ### Slot classification under a lawful policy -/

theorem isEmptySlot_iff (P : KeyPolicy K) (L : LawfulPolicy P)
    (s : KeyValue K V) : isEmptySlot P s = true ↔ s.key = P.empty_key := by
  rw [isEmptySlot, L.eq_iff]

theorem isTombSlot_iff (P : KeyPolicy K) (L : LawfulPolicy P)
    (s : KeyValue K V) : isTombSlot P s = true ↔ s.key = P.tombstone_key := by
  rw [isTombSlot, L.eq_iff]

theorem isOccupied_iff (P : KeyPolicy K) (L : LawfulPolicy P)
    (s : KeyValue K V) : isOccupied P s = true ↔
      s.key ≠ P.empty_key ∧ s.key ≠ P.tombstone_key := by
  rw [isOccupied]
  simp only [Bool.and_eq_true, Bool.not_eq_true']
  rw [← Bool.not_eq_true, ← Bool.not_eq_true, isEmptySlot_iff P L,
    isTombSlot_iff P L]

theorem isOccupied_false_of_empty (P : KeyPolicy K) (s : KeyValue K V)
    (h : isEmptySlot P s = true) : isOccupied P s = false := by
  rw [isOccupied, h]
  rfl

theorem isOccupied_false_of_tomb (P : KeyPolicy K) (s : KeyValue K V)
    (h : isTombSlot P s = true) : isOccupied P s = false := by
  rw [isOccupied, h]
  simp

/-! ### `search` at the table level -/

theorem search_unfold (P : KeyPolicy K) [Inhabited V] (m : HashMap K V)
    (key : K) (e : Nat) (hn : m.bucket.length = 2 ^ e) :
    search P m key =
      searchLoop P m.bucket key (2 ^ e) (homeIdx P (2 ^ e) key) (-1) 1
        (2 ^ e) := by
  have hne : (2 : Nat) ^ e ≠ 0 := (Nat.pos_pow_of_pos e (by norm_num)).ne'
  unfold search homeIdx
  rw [hn, if_neg hne]

/-- A key occupying slot `j` of a well-formed table is found there. -/
theorem search_present (P : KeyPolicy K) [Inhabited V] (L : LawfulPolicy P)
    (m : HashMap K V) (key : K) (e : Nat) (hn : m.bucket.length = 2 ^ e)
    (hwf : Wf P m) (hkey : NonSentinel P key) (j : Nat)
    (hj : j < m.bucket.length)
    (hocc : isOccupied P (slotAt P m.bucket j) = true)
    (hkeyj : (slotAt P m.bucket j).key = key) :
    search P m key = (j : Int) := by
  obtain ⟨hcap, hent, hdist, hplace⟩ := hwf
  obtain ⟨t, ht, hpath, hprefix⟩ := hplace j hj hocc
  rw [hkeyj, hn] at hpath hprefix
  rw [hn] at ht
  have hstart : homeIdx P (2 ^ e) key < 2 ^ e := homeIdx_lt P e key
  have hpre : ∀ s, s < t →
      (slotAt P m.bucket (probeIdx (2 ^ e) (homeIdx P (2 ^ e) key) s)).key ≠
        key ∧
      isEmptySlot P
        (slotAt P m.bucket (probeIdx (2 ^ e) (homeIdx P (2 ^ e) key) s)) =
        false := by
    intro s hs
    refine ⟨?_, hprefix s hs⟩
    intro hkeq
    have hsne : probeIdx (2 ^ e) (homeIdx P (2 ^ e) key) s ≠ j := by
      intro hcontra
      rw [← hpath] at hcontra
      exact absurd (probeIdx_inj e _ hstart s t (by omega) ht hcontra) (by omega)
    have hslt : probeIdx (2 ^ e) (homeIdx P (2 ^ e) key) s < m.bucket.length := by
      rw [hn]
      exact probeIdx_lt e _ s hstart
    have hsocc : isOccupied P
        (slotAt P m.bucket (probeIdx (2 ^ e) (homeIdx P (2 ^ e) key) s)) =
        true := by
      rw [isOccupied_iff P L, hkeq]
      exact hkey
    exact hdist _ hslt j hj ⟨hsne, hsocc, hocc⟩ (by rw [hkeq, hkeyj])
  have := searchLoop_found_aux P L m.bucket key e (homeIdx P (2 ^ e) key) t ht
    (by rw [hpath, hkeyj]) hpre t 0 (by omega) (-1)
  rw [search_unfold P m key e hn]
  rw [hpath] at this
  exact this

/-- `search` for an absent key on a table with an Empty slot reports
not-found at the first Tombstone of the probe sequence if one precedes the
first Empty slot, and at the first Empty slot otherwise. -/
theorem search_insertPoint (P : KeyPolicy K) [Inhabited V]
    (L : LawfulPolicy P) (m : HashMap K V) (key : K) (e : Nat)
    (hn : m.bucket.length = 2 ^ e) (hkey : NonSentinel P key)
    (habsent : ∀ j, j < m.bucket.length → (slotAt P m.bucket j).key ≠ key)
    (hempty : ∃ j, j < m.bucket.length ∧
      isEmptySlot P (slotAt P m.bucket j) = true) :
    ∃ t', t' < 2 ^ e ∧
      search P m key =
        -(1 + (probeIdx (2 ^ e) (homeIdx P (2 ^ e) key) t' : Int)) ∧
      isOccupied P
        (slotAt P m.bucket (probeIdx (2 ^ e) (homeIdx P (2 ^ e) key) t')) =
        false ∧
      (∀ s, s < t' → isEmptySlot P
        (slotAt P m.bucket (probeIdx (2 ^ e) (homeIdx P (2 ^ e) key) s)) =
        false) := by
  classical
  have hstart : homeIdx P (2 ^ e) key < 2 ^ e := homeIdx_lt P e key
  have hex : ∃ k, k < 2 ^ e ∧ isEmptySlot P
      (slotAt P m.bucket (probeIdx (2 ^ e) (homeIdx P (2 ^ e) key) k)) =
      true := by
    obtain ⟨j, hj, hjE⟩ := hempty
    rw [hn] at hj
    obtain ⟨k, hk, hkj⟩ := probeIdx_surj e _ hstart j hj
    exact ⟨k, hk, by rw [hkj]; exact hjE⟩
  set t := Nat.find hex with hdef
  obtain ⟨htlt, htE⟩ := Nat.find_spec hex
  have hmin : ∀ s, s < t → isEmptySlot P
      (slotAt P m.bucket (probeIdx (2 ^ e) (homeIdx P (2 ^ e) key) s)) =
      false := by
    intro s hs
    have := Nat.find_min hex hs
    rcases Bool.eq_false_or_eq_true (isEmptySlot P
      (slotAt P m.bucket (probeIdx (2 ^ e) (homeIdx P (2 ^ e) key) s))) with
        hb | hb
    · exact absurd ⟨by omega, hb⟩ this
    · exact hb
  have hpre : ∀ s, s < t →
      (slotAt P m.bucket (probeIdx (2 ^ e) (homeIdx P (2 ^ e) key) s)).key ≠
        key ∧
      isEmptySlot P
        (slotAt P m.bucket (probeIdx (2 ^ e) (homeIdx P (2 ^ e) key) s)) =
        false := by
    intro s hs
    refine ⟨?_, hmin s hs⟩
    apply habsent
    rw [hn]
    exact probeIdx_lt e _ s hstart
  by_cases htomb : ∃ s, s < t ∧ isTombSlot P
      (slotAt P m.bucket (probeIdx (2 ^ e) (homeIdx P (2 ^ e) key) s)) = true
  · obtain ⟨ht0t, ht0T⟩ := Nat.find_spec htomb
    have ht0min : ∀ s, s < Nat.find htomb → isTombSlot P
        (slotAt P m.bucket (probeIdx (2 ^ e) (homeIdx P (2 ^ e) key) s)) =
        false := by
      intro s hs
      have := Nat.find_min htomb hs
      rcases Bool.eq_false_or_eq_true (isTombSlot P
        (slotAt P m.bucket (probeIdx (2 ^ e) (homeIdx P (2 ^ e) key) s))) with
          hb | hb
      · exact absurd ⟨by omega, hb⟩ this
      · exact hb
    have hres := searchLoop_tomb_aux P L m.bucket key e (homeIdx P (2 ^ e) key)
      t (Nat.find htomb) htlt ht0t hkey.1 htE ht0T ht0min hpre t 0 (-1)
      (by omega) (Or.inl ⟨by omega, rfl⟩)
    refine ⟨Nat.find htomb, by omega, ?_, ?_, ?_⟩
    · rw [search_unfold P m key e hn]
      exact hres
    · exact isOccupied_false_of_tomb P _ ht0T
    · intro s hs
      exact hmin s (by omega)
  · have hnotomb : ∀ s, s < t → isTombSlot P
        (slotAt P m.bucket (probeIdx (2 ^ e) (homeIdx P (2 ^ e) key) s)) =
        false := by
      intro s hs
      rcases Bool.eq_false_or_eq_true (isTombSlot P
        (slotAt P m.bucket (probeIdx (2 ^ e) (homeIdx P (2 ^ e) key) s))) with
          hb | hb
      · exact absurd ⟨s, hs, hb⟩ htomb
      · exact hb
    have hres := searchLoop_notfound_aux P L m.bucket key e
      (homeIdx P (2 ^ e) key) t htlt hkey.1 htE hpre hnotomb t 0 (by omega)
    refine ⟨t, htlt, ?_, ?_, hmin⟩
    · rw [search_unfold P m key e hn]
      exact hres
    · exact isOccupied_false_of_empty P _ htE


/-! ### Updating one slot: counting and permutation lemmas -/

theorem countP_set {α : Type} (p : α → Bool) :
    ∀ (l : List α) (j : Nat) (a d : α), j < l.length →
      (l.set j a).countP p + (if p (l.getD j d) then 1 else 0) =
        l.countP p + (if p a then 1 else 0) := by
  intro l
  induction l with
  | nil =>
    intro j a d h
    simp at h
  | cons x xs ih =>
    intro j a d h
    cases j with
    | zero =>
      simp only [List.set_cons_zero, List.countP_cons, List.getD_cons_zero]
      omega
    | succ j =>
      simp only [List.set_cons_succ, List.countP_cons, List.getD_cons_succ]
      have := ih j a d (by simpa using h)
      omega

theorem filter_set_perm {α : Type} (p : α → Bool) :
    ∀ (l : List α) (j : Nat) (a d : α), j < l.length → p a = true →
      p (l.getD j d) = false →
      ((l.set j a).filter p).Perm (a :: l.filter p) := by
  intro l
  induction l with
  | nil =>
    intro j a d h
    simp at h
  | cons x xs ih =>
    intro j a d h hpa hpold
    cases j with
    | zero =>
      simp only [List.getD_cons_zero] at hpold
      simp only [List.set_cons_zero, List.filter_cons, hpa, hpold, if_pos,
        if_neg]
      simp [hpa, hpold]
    | succ j =>
      simp only [List.getD_cons_succ] at hpold
      have hperm := ih j a d (by simpa using h) hpa hpold
      simp only [List.set_cons_succ, List.filter_cons]
      rcases hpx : p x with _ | _
      · simpa [hpx] using hperm
      · simp only [hpx, if_pos rfl]
        exact (hperm.cons x).trans (List.Perm.swap a x _)

theorem slotAt_set_eq (P : KeyPolicy K) [Inhabited V]
    (l : List (KeyValue K V)) (j : Nat) (a : KeyValue K V)
    (h : j < l.length) : slotAt P (l.set j a) j = a := by
  rw [slotAt, List.getD_eq_getElem?_getD, List.getElem?_set_self h]
  rfl

theorem slotAt_set_ne (P : KeyPolicy K) [Inhabited V]
    (l : List (KeyValue K V)) (i j : Nat) (a : KeyValue K V)
    (h : i ≠ j) : slotAt P (l.set i a) j = slotAt P l j := by
  rw [slotAt, slotAt, List.getD_eq_getElem?_getD, List.getD_eq_getElem?_getD,
    List.getElem?_set_ne h]


/-- Writing a fresh key at the insertion point reported by `search`
preserves the invariant, adds exactly the new pair to the Occupied slots,
and leaves length and tombstone counter unchanged. -/
theorem insertWrite_spec (P : KeyPolicy K) [Inhabited V] (L : LawfulPolicy P)
    (m : HashMap K V) (key : K) (value : V) (e : Nat)
    (hn : m.bucket.length = 2 ^ e) (hwf : Wf P m)
    (hkey : NonSentinel P key)
    (habsent : ∀ j, j < m.bucket.length → (slotAt P m.bucket j).key ≠ key)
    (hempty : ∃ j, j < m.bucket.length ∧
      isEmptySlot P (slotAt P m.bucket j) = true) :
    Wf P (insertWrite m key value (-(1 + search P m key))) ∧
    (insertWrite m key value (-(1 + search P m key))).bucket.length =
      m.bucket.length ∧
    (insertWrite m key value (-(1 + search P m key))).nb_entries =
      m.nb_entries + 1 ∧
    (insertWrite m key value (-(1 + search P m key))).nb_tombstones =
      m.nb_tombstones ∧
    ((insertWrite m key value (-(1 + search P m key))).bucket.filter
      (fun s => isOccupied P s)).Perm
      (⟨key, value⟩ :: m.bucket.filter (fun s => isOccupied P s)) ∧
    ((∀ j, j < m.bucket.length → isTombSlot P (slotAt P m.bucket j) = false) →
      ∀ j, j < m.bucket.length →
        isTombSlot P (slotAt P (insertWrite m key value
          (-(1 + search P m key))).bucket j) = false) := by
  obtain ⟨hcap, hent, hdist, hplace⟩ := hwf
  obtain ⟨t', ht', hres, hnotocc, hpreE⟩ :=
    search_insertPoint P L m key e hn hkey habsent hempty
  have hstart : homeIdx P (2 ^ e) key < 2 ^ e := homeIdx_lt P e key
  have hj0 : probeIdx (2 ^ e) (homeIdx P (2 ^ e) key) t' < m.bucket.length := by
    rw [hn]
    exact probeIdx_lt e _ t' hstart
  have hloc : (-(1 + search P m key)).toNat =
      probeIdx (2 ^ e) (homeIdx P (2 ^ e) key) t' := by
    rw [hres]
    omega
  have hbucket : (insertWrite m key value (-(1 + search P m key))).bucket =
      m.bucket.set (probeIdx (2 ^ e) (homeIdx P (2 ^ e) key) t')
        ⟨key, value⟩ := by
    rw [insertWrite, hloc]
  have hkey_not_empty : isEmptySlot P (⟨key, value⟩ : KeyValue K V) = false :=
    Bool.eq_false_iff.mpr (fun h => hkey.1 ((isEmptySlot_iff P L _).mp h))
  have hkey_not_tomb : isTombSlot P (⟨key, value⟩ : KeyValue K V) = false :=
    Bool.eq_false_iff.mpr (fun h => hkey.2 ((isTombSlot_iff P L _).mp h))
  have hocc_new : isOccupied P (⟨key, value⟩ : KeyValue K V) = true := by
    rw [isOccupied, hkey_not_empty, hkey_not_tomb]
    rfl
  have hlen : (insertWrite m key value (-(1 + search P m key))).bucket.length =
      m.bucket.length := by
    rw [hbucket, List.length_set]
  have hcount : ((m.bucket.set (probeIdx (2 ^ e) (homeIdx P (2 ^ e) key) t')
      (⟨key, value⟩ : KeyValue K V)).countP (fun s => isOccupied P s)) =
      m.bucket.countP (fun s => isOccupied P s) + 1 := by
    have hthis := countP_set (fun s => isOccupied P s) m.bucket
      (probeIdx (2 ^ e) (homeIdx P (2 ^ e) key) t') ⟨key, value⟩
      (emptySlot P) hj0
    have h1 : (if (fun s => isOccupied P s) (⟨key, value⟩ : KeyValue K V) =
        true then 1 else 0) = 1 := by
      show (if isOccupied P (⟨key, value⟩ : KeyValue K V) = true
        then 1 else 0) = 1
      rw [hocc_new]
      simp
    have h2 : (if (fun s => isOccupied P s) (m.bucket.getD
        (probeIdx (2 ^ e) (homeIdx P (2 ^ e) key) t') (emptySlot P)) = true
        then 1 else 0) = 0 := by
      show (if isOccupied P (m.bucket.getD
        (probeIdx (2 ^ e) (homeIdx P (2 ^ e) key) t') (emptySlot P)) = true
        then 1 else 0) = 0
      have hx : isOccupied P (m.bucket.getD
          (probeIdx (2 ^ e) (homeIdx P (2 ^ e) key) t') (emptySlot P)) =
          false := hnotocc
      rw [hx]
      simp
    rw [h1, h2] at hthis
    omega
  have hperm : ((insertWrite m key value
      (-(1 + search P m key))).bucket.filter (fun s => isOccupied P s)).Perm
      ((⟨key, value⟩ : KeyValue K V) :: m.bucket.filter
        (fun s => isOccupied P s)) := by
    rw [hbucket]
    exact filter_set_perm (fun s => isOccupied P s) m.bucket _ ⟨key, value⟩
      (emptySlot P) hj0 hocc_new hnotocc
  refine ⟨⟨?_, ?_, ?_, ?_⟩, hlen, rfl, rfl, hperm, ?_⟩
  · rw [hlen]
    exact hcap
  · show m.nb_entries + 1 = _
    rw [hent]
    have hfl : ((insertWrite m key value
        (-(1 + search P m key))).bucket.filter
        (fun s => isOccupied P s)).length =
        (m.bucket.filter (fun s => isOccupied P s)).length + 1 := by
      rw [hbucket, ← List.countP_eq_length_filter, ← List.countP_eq_length_filter,
        hcount]
    rw [hfl]
    push_cast
    ring
  · rw [hlen]
    intro j1 hj1 j2 hj2 ⟨hne, hocc1, hocc2⟩
    rw [hbucket] at hocc1 hocc2 ⊢
    by_cases h1 : j1 = probeIdx (2 ^ e) (homeIdx P (2 ^ e) key) t' <;>
      by_cases h2 : j2 = probeIdx (2 ^ e) (homeIdx P (2 ^ e) key) t'
    · exact absurd (h1.trans h2.symm) hne
    · subst h1
      rw [slotAt_set_eq P _ _ _ hj0]
      rw [slotAt_set_ne P _ _ _ _ (fun h => h2 h.symm)] at hocc2 ⊢
      exact fun h => habsent j2 hj2 (h.symm)
    · subst h2
      rw [slotAt_set_eq P _ _ _ hj0]
      rw [slotAt_set_ne P _ _ _ _ (fun h => h1 h.symm)] at hocc1 ⊢
      exact fun h => habsent j1 hj1 h
    · rw [slotAt_set_ne P _ _ _ _ (fun h => h1 h.symm)] at hocc1 ⊢
      rw [slotAt_set_ne P _ _ _ _ (fun h => h2 h.symm)] at hocc2 ⊢
      exact hdist j1 hj1 j2 hj2 ⟨hne, hocc1, hocc2⟩
  · rw [hlen, hn]
    intro j hj hocc
    rw [hbucket] at hocc ⊢
    by_cases h1 : j = probeIdx (2 ^ e) (homeIdx P (2 ^ e) key) t'
    · subst h1
      rw [slotAt_set_eq P _ _ _ hj0]
      refine ⟨t', ht', ?_, ?_⟩
      · rfl
      · intro s hs
        have hsne : probeIdx (2 ^ e) (homeIdx P (2 ^ e) key) s ≠
            probeIdx (2 ^ e) (homeIdx P (2 ^ e) key) t' := by
          intro hcontra
          exact absurd (probeIdx_inj e _ hstart s t' (by omega) ht' hcontra)
            (by omega)
        rw [slotAt_set_ne P _ _ _ _ (fun h => hsne h.symm)]
        exact hpreE s hs
    · rw [slotAt_set_ne P _ _ _ _ (fun h => h1 h.symm)] at hocc ⊢
      obtain ⟨t, ht, hpath, hpre⟩ := hplace j (by omega) hocc
      rw [hn] at ht hpath hpre
      refine ⟨t, ht, hpath, ?_⟩
      intro s hs
      by_cases h2 : probeIdx (2 ^ e)
          (homeIdx P (2 ^ e)
            (slotAt P m.bucket j).key) s =
          probeIdx (2 ^ e) (homeIdx P (2 ^ e) key) t'
      · rw [h2, slotAt_set_eq P _ _ _ hj0]
        exact hkey_not_empty
      · rw [slotAt_set_ne P _ _ _ _ (fun h => h2 h.symm)]
        exact hpre s hs
  · intro hnt j hj
    rw [hbucket]
    by_cases h1 : j = probeIdx (2 ^ e) (homeIdx P (2 ^ e) key) t'
    · subst h1
      rw [slotAt_set_eq P _ _ _ hj0]
      exact hkey_not_tomb
    · rw [slotAt_set_ne P _ _ _ _ (fun h => h1 h.symm)]
      exact hnt j hj


/-! ### Growth -/

theorem slotAt_eq_getElem (P : KeyPolicy K) [Inhabited V]
    (l : List (KeyValue K V)) (j : Nat) (h : j < l.length) :
    slotAt P l j = l[j] := by
  rw [slotAt, List.getD_eq_getElem?_getD, List.getElem?_eq_getElem h]
  rfl

/-- A table whose slots are all non-Empty and non-Tombstone is fully
occupied. -/
theorem countOcc_full (P : KeyPolicy K) [Inhabited V]
    (bucket : List (KeyValue K V))
    (hnt : ∀ j, j < bucket.length → isTombSlot P (slotAt P bucket j) = false)
    (hne : ∀ j, j < bucket.length → isEmptySlot P (slotAt P bucket j) = false) :
    (bucket.filter (fun s => isOccupied P s)).length = bucket.length := by
  rw [← List.countP_eq_length_filter]
  rw [List.countP_eq_length]
  intro a ha
  obtain ⟨i, hi, hia⟩ := List.getElem_of_mem ha
  have h1 := hnt i hi
  have h2 := hne i hi
  rw [slotAt_eq_getElem P bucket i hi, hia] at h1 h2
  show isOccupied P a = true
  rw [isOccupied, h1, h2]
  rfl

/-- The fold inside `grow` re-inserts exactly the Occupied slots of the old
storage into the fresh table, preserving the invariant and keeping the fresh
table tombstone-free. -/
theorem grow_fold_inv (P : KeyPolicy K) [Inhabited V] (L : LawfulPolicy P)
    (mb : List (KeyValue K V)) (e' n : Nat) (hne : n = 2 ^ e')
    (hdistm : ∀ j1, j1 < mb.length → ∀ j2, j2 < mb.length →
      (j1 ≠ j2 ∧ isOccupied P (slotAt P mb j1) = true ∧
        isOccupied P (slotAt P mb j2) = true) →
      (slotAt P mb j1).key ≠ (slotAt P mb j2).key)
    (hcnt : (mb.filter (fun s => isOccupied P s)).length ≤ n) :
    ∀ (suf pre : List (KeyValue K V)), mb = pre ++ suf →
    ∀ acc : HashMap K V,
      acc.bucket.length = n →
      acc.nb_tombstones = 0 →
      (∀ j, j < n → isTombSlot P (slotAt P acc.bucket j) = false) →
      Wf P acc →
      (acc.bucket.filter (fun s => isOccupied P s)).Perm
        (pre.filter (fun s => isOccupied P s)) →
      ((suf.foldl (fun acc slot =>
        if !(P.is_equal slot.key P.empty_key) &&
           !(P.is_equal slot.key P.tombstone_key) then
          growInsert P acc slot.key slot.value
        else acc) acc).bucket.length = n ∧
      (suf.foldl (fun acc slot =>
        if !(P.is_equal slot.key P.empty_key) &&
           !(P.is_equal slot.key P.tombstone_key) then
          growInsert P acc slot.key slot.value
        else acc) acc).nb_tombstones = 0 ∧
      (∀ j, j < n → isTombSlot P (slotAt P (suf.foldl (fun acc slot =>
        if !(P.is_equal slot.key P.empty_key) &&
           !(P.is_equal slot.key P.tombstone_key) then
          growInsert P acc slot.key slot.value
        else acc) acc).bucket j) = false) ∧
      Wf P (suf.foldl (fun acc slot =>
        if !(P.is_equal slot.key P.empty_key) &&
           !(P.is_equal slot.key P.tombstone_key) then
          growInsert P acc slot.key slot.value
        else acc) acc) ∧
      ((suf.foldl (fun acc slot =>
        if !(P.is_equal slot.key P.empty_key) &&
           !(P.is_equal slot.key P.tombstone_key) then
          growInsert P acc slot.key slot.value
        else acc) acc).bucket.filter (fun s => isOccupied P s)).Perm
        (mb.filter (fun s => isOccupied P s))) := by
  intro suf
  induction suf with
  | nil =>
    intro pre hsplit acc hlen htf hnt hwf hperm
    refine ⟨hlen, htf, hnt, hwf, ?_⟩
    simp only [List.foldl_nil]
    rw [hsplit, List.append_nil]
    exact hperm
  | cons x rest ih =>
    intro pre hsplit acc hlen htf hnt hwf hperm
    subst hsplit
    simp only [List.foldl_cons]
    have hcond : (!(P.is_equal x.key P.empty_key) &&
        !(P.is_equal x.key P.tombstone_key)) = isOccupied P x := rfl
    simp only [hcond]
    rcases hocc : isOccupied P x with _ | _
    · simp only [hocc, Bool.false_eq_true, if_false]
      apply ih (pre ++ [x]) (by simp) acc hlen htf hnt hwf
      rw [List.filter_append]
      have hx : List.filter (fun s => isOccupied P s) [x] = [] := by
        simp [hocc]
      rw [hx, List.append_nil]
      exact hperm
    · simp only [hocc, eq_self_iff_true, if_true]
      -- the guard in growInsert is never taken
      have hpre_lt : (pre.filter (fun s => isOccupied P s)).length < n := by
        have hsplit' : (((pre ++ x :: rest)).filter
            (fun s => isOccupied P s)).length =
            (pre.filter (fun s => isOccupied P s)).length +
            ((x :: rest).filter (fun s => isOccupied P s)).length := by
          rw [List.filter_append, List.length_append]
        have hxr : ((x :: rest).filter (fun s => isOccupied P s)).length ≥ 1 := by
          rw [List.filter_cons]
          simp only [hocc, if_pos]
          simp
        omega
      have hacc_cnt : (acc.bucket.filter (fun s => isOccupied P s)).length =
          (pre.filter (fun s => isOccupied P s)).length := hperm.length_eq
      obtain ⟨haccap, haccent, haccdist, haccplace⟩ := hwf
      have hguard : ¬ (acc.nb_entries ≥ (acc.bucket.length : Int)) := by
        rw [haccent, hlen, hacc_cnt]
        omega
      have hkeyx : NonSentinel P x.key := by
        rw [isOccupied_iff P L] at hocc
        exact hocc
      have habsent : ∀ j, j < acc.bucket.length →
          (slotAt P acc.bucket j).key ≠ x.key := by
        intro j hj hcontra
        have hjocc : isOccupied P (slotAt P acc.bucket j) = true := by
          rw [isOccupied_iff P L, hcontra]
          exact hkeyx
        have hmem : slotAt P acc.bucket j ∈
            acc.bucket.filter (fun s => isOccupied P s) := by
          rw [List.mem_filter]
          constructor
          · rw [slotAt_eq_getElem P acc.bucket j hj]
            exact List.getElem_mem hj
          · exact hjocc
        have hmem2 : slotAt P acc.bucket j ∈
            pre.filter (fun s => isOccupied P s) := hperm.mem_iff.mp hmem
        rw [List.mem_filter] at hmem2
        obtain ⟨hmemp, hoccp⟩ := hmem2
        obtain ⟨iy, hiy, hiya⟩ := List.getElem_of_mem hmemp
        have hiy' : iy < (pre ++ x :: rest).length := by
          rw [List.length_append]
          omega
        have hx' : pre.length < (pre ++ x :: rest).length := by
          rw [List.length_append]
          simp
        have hgety : slotAt P (pre ++ x :: rest) iy = pre[iy] := by
          rw [slotAt_eq_getElem P _ iy hiy', List.getElem_append_left hiy]
        have hgetx : slotAt P (pre ++ x :: rest) pre.length = x := by
          rw [slotAt_eq_getElem P _ pre.length hx',
            List.getElem_append_right (Nat.le_refl pre.length)]
          simp
        have hd := hdistm iy hiy' pre.length hx'
          ⟨by omega, by rw [hgety, hiya]; exact hoccp, by rw [hgetx]; exact hocc⟩
        rw [hgety, hgetx, hiya] at hd
        exact hd hcontra
      have hempty : ∃ j, j < acc.bucket.length ∧
          isEmptySlot P (slotAt P acc.bucket j) = true := by
        by_contra hcon
        push_neg at hcon
        have hne' : ∀ j, j < acc.bucket.length →
            isEmptySlot P (slotAt P acc.bucket j) = false := by
          intro j hj
          rcases hb : isEmptySlot P (slotAt P acc.bucket j) with _ | _
          · rfl
          · exact absurd hb (hcon j hj)
        have hfull := countOcc_full P acc.bucket
          (by intro j hj; exact hnt j (by omega))
          hne'
        rw [hacc_cnt, hlen] at hfull
        omega
      have hgrowins : growInsert P acc x.key x.value =
          insertWrite acc x.key x.value (-(1 + search P acc x.key)) := by
        rw [growInsert, if_neg hguard]
      obtain ⟨hwf', hlen', hent', htmb', hperm', hnt'⟩ :=
        insertWrite_spec P L acc x.key x.value e' (by rw [hlen, hne])
          ⟨haccap, haccent, haccdist, haccplace⟩ hkeyx habsent hempty
      rw [hgrowins]
      apply ih (pre ++ [x]) (by simp)
      · rw [hlen']
        exact hlen
      · rw [htmb']
        exact htf
      · intro j hj
        apply hnt'
        · intro j' hj'
          exact hnt j' (by omega)
        · omega
      · exact hwf'
      · rw [List.filter_append]
        have hxf : List.filter (fun s => isOccupied P s) [x] = [x] := by
          simp [hocc]
        rw [hxf]
        have hxeta : (⟨x.key, x.value⟩ : KeyValue K V) = x := rfl
        rw [hxeta] at hperm'
        exact hperm'.trans ((hperm.cons x).trans
          (List.perm_append_singleton x _).symm)


/-- A table that is not fully occupied and holds no Tombstone has an Empty
slot. -/
theorem exists_empty_slot (P : KeyPolicy K) [Inhabited V]
    (bucket : List (KeyValue K V))
    (hnt : ∀ j, j < bucket.length → isTombSlot P (slotAt P bucket j) = false)
    (hlt : (bucket.filter (fun s => isOccupied P s)).length < bucket.length) :
    ∃ j, j < bucket.length ∧ isEmptySlot P (slotAt P bucket j) = true := by
  by_contra hcon
  push_neg at hcon
  have hne' : ∀ j, j < bucket.length →
      isEmptySlot P (slotAt P bucket j) = false := by
    intro j hj
    rcases hb : isEmptySlot P (slotAt P bucket j) with _ | _
    · rfl
    · exact absurd hb (hcon j hj)
  have := countOcc_full P bucket hnt hne'
  omega

/-- `HashMap::grow` on a well-formed table: the new storage has exactly the
requested power-of-two length, the tombstone counter is reset to 0 and no
Tombstone slot exists, the live count is unchanged, and the Occupied
key/value pairs are exactly those of the old storage. -/
theorem grow_spec (P : KeyPolicy K) [Inhabited V] (L : LawfulPolicy P)
    (m : HashMap K V) (e' n : Nat) (hne : n = 2 ^ e') (he' : e' < 64)
    (hwf : Wf P m)
    (hcnt : (m.bucket.filter (fun s => isOccupied P s)).length ≤ n) :
    (grow P m n).bucket.length = n ∧
    (grow P m n).nb_tombstones = 0 ∧
    (∀ j, j < n → isTombSlot P (slotAt P (grow P m n).bucket j) = false) ∧
    Wf P (grow P m n) ∧
    ((grow P m n).bucket.filter (fun s => isOccupied P s)).Perm
      (m.bucket.filter (fun s => isOccupied P s)) ∧
    (grow P m n).nb_entries = m.nb_entries := by
  obtain ⟨hcap, hent, hdist, hplace⟩ := hwf
  have hn0 : 0 < n := by
    rw [hne]
    exact Nat.pos_pow_of_pos e' (by norm_num)
  have hslot_init : ∀ j, j < n →
      slotAt P (List.replicate n (emptySlot P) : List (KeyValue K V)) j =
        emptySlot P := by
    intro j hj
    rw [slotAt_eq_getElem P _ j (by rw [List.length_replicate]; exact hj)]
    exact List.getElem_replicate _ _
  have hocc_init : isOccupied P (emptySlot P : KeyValue K V) = false := by
    have hE : isEmptySlot P (emptySlot P : KeyValue K V) = true := by
      rw [isEmptySlot]
      exact (L.eq_iff _ _).mpr rfl
    exact isOccupied_false_of_empty P _ hE
  have htomb_init : isTombSlot P (emptySlot P : KeyValue K V) = false :=
    Bool.eq_false_iff.mpr (fun h => L.sentinels_ne ((L.eq_iff _ _).mp h))
  have hfilter_init : (List.replicate n (emptySlot P) :
      List (KeyValue K V)).filter (fun s => isOccupied P s) = [] := by
    apply List.filter_eq_nil_iff.mpr
    intro a ha
    rw [List.eq_of_mem_replicate ha]
    simp [hocc_init]
  have hinit : Wf P ({ bucket := List.replicate n (emptySlot P),
                       nb_entries := 0, nb_tombstones := 0 } : HashMap K V) := by
    refine ⟨?_, ?_, ?_, ?_⟩
    · right
      exact ⟨e', he', by rw [List.length_replicate, hne]⟩
    · show (0 : Int) = _
      rw [hfilter_init]
      rfl
    · intro j1 hj1 j2 hj2 ⟨hne12, hocc1, hocc2⟩
      rw [List.length_replicate] at hj1
      rw [hslot_init j1 hj1, hocc_init] at hocc1
      exact absurd hocc1 (by simp)
    · intro j hj hocc
      rw [List.length_replicate] at hj
      rw [hslot_init j hj, hocc_init] at hocc
      exact absurd hocc (by simp)
  have h := grow_fold_inv P L m.bucket e' n hne hdist hcnt m.bucket [] rfl
    { bucket := List.replicate n (emptySlot P), nb_entries := 0,
      nb_tombstones := 0 }
    (by rw [List.length_replicate]) rfl
    (by
      intro j hj
      rw [hslot_init j hj]
      exact htomb_init)
    hinit
    (by rw [hfilter_init, List.filter_nil])
  obtain ⟨hlen, htmb, hnt, hwf', hperm⟩ := h
  refine ⟨hlen, htmb, hnt, hwf', hperm, ?_⟩
  obtain ⟨_, hent2, _, _⟩ := hwf'
  have hent2' : (grow P m n).nb_entries =
      (((grow P m n).bucket.filter (fun s => isOccupied P s)).length : Int) :=
    hent2
  have hperm2 : ((grow P m n).bucket.filter (fun s => isOccupied P s)).Perm
      (m.bucket.filter (fun s => isOccupied P s)) := hperm
  rw [hent2', hent]
  congr 1
  exact hperm2.length_eq

/-- `HashMap::insert(key, value)` of a fresh non-sentinel key on a
well-formed table that either has an Empty slot or is due for growth:
the invariant is preserved, the capacity never shrinks, the live count goes
up by one, the new pair joins the Occupied slots, tombstone-freeness is
preserved, and the capacity either stays or becomes `nb_bucket nb_entries`. -/
theorem insertKV_spec (P : KeyPolicy K) [Inhabited V] (L : LawfulPolicy P)
    (m : HashMap K V) (key : K) (value : V) (hwf : Wf P m)
    (hkey : NonSentinel P key)
    (habsent : ∀ j, j < m.bucket.length → (slotAt P m.bucket j).key ≠ key)
    (hcap : m.bucket.length < 2 ^ 62)
    (hspace : m.nb_entries ≥ (m.bucket.length : Int) ∨
      ∃ j, j < m.bucket.length ∧ isEmptySlot P (slotAt P m.bucket j) = true) :
    Wf P (insertKV P m key value) ∧
    m.bucket.length ≤ (insertKV P m key value).bucket.length ∧
    (insertKV P m key value).nb_entries = m.nb_entries + 1 ∧
    ((insertKV P m key value).bucket.filter (fun s => isOccupied P s)).Perm
      (⟨key, value⟩ :: m.bucket.filter (fun s => isOccupied P s)) ∧
    ((∀ j, j < m.bucket.length → isTombSlot P (slotAt P m.bucket j) = false) →
      ∀ j, j < (insertKV P m key value).bucket.length →
        isTombSlot P (slotAt P (insertKV P m key value).bucket j) = false) ∧
    ((insertKV P m key value).bucket.length = m.bucket.length ∨
      (insertKV P m key value).bucket.length = nb_bucket m.nb_entries) := by
  have hunfold : insertKV P m key value =
      insertAt P m key value (search P m key) := rfl
  obtain ⟨hcapw, hent, hdist, hplace⟩ := hwf
  have hcnt_le : (m.bucket.filter (fun s => isOccupied P s)).length ≤
      m.bucket.length := List.length_filter_le _ _
  by_cases hguard : m.nb_entries ≥ (m.bucket.length : Int)
  · -- growth path
    have hent_eq : m.nb_entries = (m.bucket.length : Int) := by
      rw [hent]
      rw [hent] at hguard
      omega
    have hent_nonneg : 0 ≤ m.nb_entries := by
      rw [hent]
      positivity
    obtain ⟨e2, he2, hn2⟩ := nb_bucket_pow m.nb_entries hent_nonneg
      (by rw [hent_eq]; exact_mod_cast hcap)
    have hgt := nb_bucket_gt m.nb_entries hent_nonneg
      (by rw [hent_eq]; exact_mod_cast hcap)
    have hlen_lt : m.bucket.length < nb_bucket m.nb_entries := by
      omega
    obtain ⟨hlen_g, htmb_g, hnt_g, hwf_g, hperm_g, hent_g⟩ :=
      grow_spec P L m e2 (nb_bucket m.nb_entries) hn2 he2
        ⟨hcapw, hent, hdist, hplace⟩ (by omega)
    set g := grow P m (nb_bucket m.nb_entries) with hgdef
    have habsent_g : ∀ j, j < g.bucket.length →
        (slotAt P g.bucket j).key ≠ key := by
      intro j hj hcontra
      have hjocc : isOccupied P (slotAt P g.bucket j) = true := by
        rw [isOccupied_iff P L, hcontra]
        exact hkey
      have hmem : slotAt P g.bucket j ∈
          g.bucket.filter (fun s => isOccupied P s) := by
        rw [List.mem_filter]
        refine ⟨?_, hjocc⟩
        rw [slotAt_eq_getElem P g.bucket j hj]
        exact List.getElem_mem hj
      have hmem2 := hperm_g.mem_iff.mp hmem
      rw [List.mem_filter] at hmem2
      obtain ⟨hmemm, _⟩ := hmem2
      obtain ⟨iy, hiy, hiya⟩ := List.getElem_of_mem hmemm
      apply habsent iy hiy
      rw [slotAt_eq_getElem P m.bucket iy hiy, hiya, hcontra]
    have hcnt_g : (g.bucket.filter (fun s => isOccupied P s)).length =
        (m.bucket.filter (fun s => isOccupied P s)).length :=
      hperm_g.length_eq
    have hempty_g : ∃ j, j < g.bucket.length ∧
        isEmptySlot P (slotAt P g.bucket j) = true := by
      apply exists_empty_slot P g.bucket (by rw [hlen_g]; exact hnt_g)
      rw [hcnt_g, hlen_g]
      omega
    obtain ⟨hwf', hlen', hent', htmb', hperm', hnt'⟩ :=
      insertWrite_spec P L g key value e2 (by rw [hlen_g, hn2]) hwf_g hkey
        habsent_g hempty_g
    have hfinal : insertKV P m key value =
        insertWrite g key value (-(1 + search P g key)) := by
      rw [hunfold, insertAt, if_pos hguard]
    rw [hfinal]
    refine ⟨hwf', ?_, ?_, ?_, ?_, ?_⟩
    · rw [hlen', hlen_g]
      omega
    · rw [hent', hent_g]
    · exact hperm'.trans (hperm_g.cons _)
    · intro _ j hj
      apply hnt'
      · intro j' hj'
        exact hnt_g j' (by omega)
      · rw [hlen'] at hj
        omega
    · right
      rw [hlen', hlen_g]
  · -- direct write path
    push_neg at hguard
    have hempty : ∃ j, j < m.bucket.length ∧
        isEmptySlot P (slotAt P m.bucket j) = true := by
      rcases hspace with h | h
      · exact absurd h (by omega)
      · exact h
    have hlen_pos : 0 < m.bucket.length := by
      rcases hempty with ⟨j, hj, _⟩
      omega
    have he : ∃ e, e < 64 ∧ m.bucket.length = 2 ^ e := by
      rcases hcapw with h0 | he
      · omega
      · exact he
    obtain ⟨e, he64, hlen_eq⟩ := he
    obtain ⟨hwf', hlen', hent', htmb', hperm', hnt'⟩ :=
      insertWrite_spec P L m key value e hlen_eq ⟨hcapw, hent, hdist, hplace⟩
        hkey habsent hempty
    have hfinal : insertKV P m key value =
        insertWrite m key value (-(1 + search P m key)) := by
      rw [hunfold, insertAt, if_neg (by omega)]
    rw [hfinal]
    refine ⟨hwf', by omega, hent', hperm', ?_, Or.inl hlen'⟩
    intro hnt j hj
    apply hnt'
    · exact hnt
    · omega


/-! ### Erase -/

theorem isOccupied_tombslot (P : KeyPolicy K) (L : LawfulPolicy P)
    [Inhabited V] :
    isTombSlot P (⟨P.tombstone_key, default⟩ : KeyValue K V) = true :=
  (L.eq_iff _ _).mpr rfl

theorem erase_frame (P : KeyPolicy K) [Inhabited V] (m : HashMap K V)
    (i : Int) (hi : i.toNat < m.bucket.length) :
    (erase P m i).bucket.length = m.bucket.length ∧
    slotAt P (erase P m i).bucket i.toNat =
      ⟨P.tombstone_key, (default : V)⟩ ∧
    (∀ j, j < m.bucket.length → j ≠ i.toNat →
      slotAt P (erase P m i).bucket j = slotAt P m.bucket j) ∧
    (erase P m i).nb_entries = m.nb_entries - 1 ∧
    (erase P m i).nb_tombstones = m.nb_tombstones + 1 := by
  refine ⟨?_, ?_, ?_, rfl, rfl⟩
  · show (m.bucket.set i.toNat _).length = _
    exact List.length_set m.bucket _ _
  · show slotAt P (m.bucket.set i.toNat _) i.toNat = _
    exact slotAt_set_eq P m.bucket i.toNat _ hi
  · intro j hj hne
    show slotAt P (m.bucket.set i.toNat _) j = _
    exact slotAt_set_ne P m.bucket i.toNat j _ (fun h => hne h.symm)

theorem erase_wf (P : KeyPolicy K) [Inhabited V] (L : LawfulPolicy P)
    (m : HashMap K V) (i : Int) (hwf : Wf P m)
    (hi : i.toNat < m.bucket.length)
    (hocc : isOccupied P (slotAt P m.bucket i.toNat) = true) :
    Wf P (erase P m i) := by
  obtain ⟨hcap, hent, hdist, hplace⟩ := hwf
  have htombnew : isTombSlot P (⟨P.tombstone_key, default⟩ : KeyValue K V) =
      true := isOccupied_tombslot P L
  have hoccnew : isOccupied P (⟨P.tombstone_key, default⟩ : KeyValue K V) =
      false := isOccupied_false_of_tomb P _ htombnew
  have hemptynew : isEmptySlot P (⟨P.tombstone_key, default⟩ : KeyValue K V)
      = false :=
    Bool.eq_false_iff.mpr
      (fun h => L.sentinels_ne ((L.eq_iff _ _).mp h).symm)
  have hbucket : (erase P m i).bucket =
      m.bucket.set i.toNat ⟨P.tombstone_key, default⟩ := rfl
  have hlen : (erase P m i).bucket.length = m.bucket.length := by
    rw [hbucket, List.length_set]
  refine ⟨?_, ?_, ?_, ?_⟩
  · rw [hlen]
    exact hcap
  · show m.nb_entries - 1 = _
    have hthis := countP_set (fun s => isOccupied P s) m.bucket i.toNat
      (⟨P.tombstone_key, default⟩ : KeyValue K V) (emptySlot P) hi
    have h1 : (if (fun s => isOccupied P s)
        ((⟨P.tombstone_key, default⟩ : KeyValue K V)) = true
        then 1 else 0) = 0 := by
      show (if isOccupied P (⟨P.tombstone_key, default⟩ : KeyValue K V) = true
        then 1 else 0) = 0
      rw [hoccnew]
      simp
    have h2 : (if (fun s => isOccupied P s)
        (m.bucket.getD i.toNat (emptySlot P)) = true then 1 else 0) = 1 := by
      show (if isOccupied P (m.bucket.getD i.toNat (emptySlot P)) = true
        then 1 else 0) = 1
      have hx : isOccupied P (m.bucket.getD i.toNat (emptySlot P)) = true :=
        hocc
      rw [hx]
      simp
    rw [h1, h2] at hthis
    rw [hent, hbucket, ← List.countP_eq_length_filter,
      ← List.countP_eq_length_filter]
    omega
  · rw [hlen]
    intro j1 hj1 j2 hj2 ⟨hne12, hocc1, hocc2⟩
    rw [hbucket] at hocc1 hocc2 ⊢
    by_cases h1 : j1 = i.toNat
    · subst h1
      rw [slotAt_set_eq P _ _ _ hi, hoccnew] at hocc1
      exact absurd hocc1 (by simp)
    · by_cases h2 : j2 = i.toNat
      · subst h2
        rw [slotAt_set_eq P _ _ _ hi, hoccnew] at hocc2
        exact absurd hocc2 (by simp)
      · rw [slotAt_set_ne P _ _ _ _ (fun h => h1 h.symm)] at hocc1 ⊢
        rw [slotAt_set_ne P _ _ _ _ (fun h => h2 h.symm)] at hocc2 ⊢
        exact hdist j1 hj1 j2 hj2 ⟨hne12, hocc1, hocc2⟩
  · rw [hlen]
    intro j hj hocc'
    rw [hbucket] at hocc' ⊢
    by_cases h1 : j = i.toNat
    · subst h1
      rw [slotAt_set_eq P _ _ _ hi, hoccnew] at hocc'
      exact absurd hocc' (by simp)
    · rw [slotAt_set_ne P _ _ _ _ (fun h => h1 h.symm)] at hocc' ⊢
      obtain ⟨t, ht, hpath, hpre⟩ := hplace j hj hocc'
      refine ⟨t, ht, hpath, ?_⟩
      intro s hs
      by_cases h2 : probeIdx m.bucket.length
          (homeIdx P m.bucket.length (slotAt P m.bucket j).key) s = i.toNat
      · rw [h2, slotAt_set_eq P _ _ _ hi]
        exact hemptynew
      · rw [slotAt_set_ne P _ _ _ _ (fun h => h2 h.symm)]
        exact hpre s hs

/-! ### Constructors -/

theorem replicate_table_wf (P : KeyPolicy K) [Inhabited V]
    (L : LawfulPolicy P) (n e' : Nat) (hne : n = 2 ^ e') (he' : e' < 64) :
    Wf P ({ bucket := List.replicate n (emptySlot P),
            nb_entries := 0, nb_tombstones := 0 } : HashMap K V) := by
  have hslot : ∀ j, j < n →
      slotAt P (List.replicate n (emptySlot P) : List (KeyValue K V)) j =
        emptySlot P := by
    intro j hj
    rw [slotAt_eq_getElem P _ j (by rw [List.length_replicate]; exact hj)]
    exact List.getElem_replicate _ _
  have hocc0 : isOccupied P (emptySlot P : KeyValue K V) = false := by
    apply isOccupied_false_of_empty
    rw [isEmptySlot]
    exact (L.eq_iff _ _).mpr rfl
  have hfilter : (List.replicate n (emptySlot P) :
      List (KeyValue K V)).filter (fun s => isOccupied P s) = [] := by
    apply List.filter_eq_nil_iff.mpr
    intro a ha
    rw [List.eq_of_mem_replicate ha]
    simp [hocc0]
  refine ⟨?_, ?_, ?_, ?_⟩
  · right
    exact ⟨e', he', by rw [List.length_replicate, hne]⟩
  · show (0 : Int) = _
    rw [hfilter]
    rfl
  · intro j1 hj1 j2 hj2 ⟨hne12, hocc1, hocc2⟩
    rw [List.length_replicate] at hj1
    rw [hslot j1 hj1, hocc0] at hocc1
    exact absurd hocc1 (by simp)
  · intro j hj hocc
    rw [List.length_replicate] at hj
    rw [hslot j hj, hocc0] at hocc
    exact absurd hocc (by simp)

theorem mkHashMap_wf (P : KeyPolicy K) [Inhabited V] :
    Wf P (mkHashMap : HashMap K V) := by
  refine ⟨Or.inl rfl, rfl, ?_, ?_⟩
  · intro j1 hj1
    exact absurd hj1 (by simp [mkHashMap])
  · intro j hj
    exact absurd hj (by simp [mkHashMap])

theorem mkHashMapEntries_wf (P : KeyPolicy K) [Inhabited V]
    (L : LawfulPolicy P) (c : Int) (h0 : 0 ≤ c) (hc : c < 2 ^ 62) :
    Wf P (mkHashMapEntries P c : HashMap K V) := by
  obtain ⟨e, he, hn⟩ := nb_bucket_pow c h0 hc
  exact replicate_table_wf P L (nb_bucket c) e hn he

/-! ### Iteration -/

theorem advance_spec (P : KeyPolicy K) [Inhabited V]
    (bucket : List (KeyValue K V)) :
    ∀ fuel pos, bucket.length - pos ≤ fuel →
      pos ≤ advance_past_empty_buckets P bucket pos ∧
      (bucket.length ≤ advance_past_empty_buckets P bucket pos ∨
        isOccupied P (slotAt P bucket
          (advance_past_empty_buckets P bucket pos)) = true) ∧
      (∀ k, pos ≤ k → k < advance_past_empty_buckets P bucket pos →
        isOccupied P (slotAt P bucket k) = false) := by
  intro fuel
  induction fuel with
  | zero =>
    intro pos hf
    have hpos : bucket.length ≤ pos := by omega
    rw [advance_past_empty_buckets, dif_neg (by
      rintro ⟨h1, _⟩
      omega)]
    exact ⟨le_rfl, Or.inl hpos, fun k hk1 hk2 => absurd hk2 (by omega)⟩
  | succ f ih =>
    intro pos hf
    by_cases hc : pos < bucket.length ∧
        (P.is_equal (slotAt P bucket pos).key P.empty_key ||
         P.is_equal (slotAt P bucket pos).key P.tombstone_key) = true
    · rw [advance_past_empty_buckets, dif_pos hc]
      obtain ⟨h1, h2, h3⟩ := ih (pos + 1) (by omega)
      refine ⟨by omega, h2, ?_⟩
      intro k hk1 hk2
      rcases Nat.eq_or_lt_of_le hk1 with heq | hlt
      · subst heq
        have hor := hc.2
        rw [Bool.or_eq_true] at hor
        rcases hor with hb | hb
        · exact isOccupied_false_of_empty P _ hb
        · exact isOccupied_false_of_tomb P _ hb
      · exact h3 k (by omega) hk2
    · rw [advance_past_empty_buckets, dif_neg hc]
      refine ⟨le_rfl, ?_, fun k hk1 hk2 => absurd hk2 (by omega)⟩
      rcases Nat.lt_or_ge pos bucket.length with hlt | hge
      · right
        have hX : (P.is_equal (slotAt P bucket pos).key P.empty_key ||
            P.is_equal (slotAt P bucket pos).key P.tombstone_key) = false := by
          rcases Bool.eq_false_or_eq_true (P.is_equal
            (slotAt P bucket pos).key P.empty_key ||
            P.is_equal (slotAt P bucket pos).key P.tombstone_key) with hb | hb
          · exact absurd ⟨hlt, hb⟩ hc
          · exact hb
        rw [Bool.or_eq_false_iff] at hX
        rw [isOccupied, isEmptySlot, isTombSlot, hX.1, hX.2]
        rfl
      · exact Or.inl hge

theorem advance_ge (P : KeyPolicy K) [Inhabited V]
    (bucket : List (KeyValue K V)) (pos : Nat) :
    pos ≤ advance_past_empty_buckets P bucket pos :=
  (advance_spec P bucket (bucket.length - pos) pos le_rfl).1

theorem beginScan_spec (P : KeyPolicy K) [Inhabited V]
    (bucket : List (KeyValue K V)) :
    ∀ fuel i, bucket.length - i ≤ fuel →
      (bucket.length ≤ beginScan P bucket i ∨
        isOccupied P (slotAt P bucket (beginScan P bucket i)) = true) ∧
      (∀ k, i ≤ k → k < beginScan P bucket i →
        isOccupied P (slotAt P bucket k) = false) := by
  intro fuel
  induction fuel with
  | zero =>
    intro i hf
    rw [beginScan, dif_neg (by omega)]
    exact ⟨Or.inl le_rfl, fun k hk1 hk2 => absurd hk2 (by omega)⟩
  | succ f ih =>
    intro i hf
    by_cases hlt : i < bucket.length
    · rw [beginScan, dif_pos hlt]
      have hcond : (!(P.is_equal (slotAt P bucket i).key P.empty_key) &&
          !(P.is_equal (slotAt P bucket i).key P.tombstone_key)) =
          isOccupied P (slotAt P bucket i) := rfl
      rcases hocc : isOccupied P (slotAt P bucket i) with _ | _
      · rw [hcond, hocc]
        simp only [Bool.false_eq_true, if_false]
        obtain ⟨h2, h3⟩ := ih (i + 1) (by omega)
        refine ⟨h2, ?_⟩
        intro k hk1 hk2
        rcases Nat.eq_or_lt_of_le hk1 with heq | hgt
        · subst heq
          exact hocc
        · exact h3 k (by omega) hk2
      · rw [hcond, hocc]
        simp only [if_true]
        exact ⟨Or.inr hocc,
          fun k hk1 hk2 => absurd hk2 (by omega)⟩
    · rw [beginScan, dif_neg hlt]
      exact ⟨Or.inl le_rfl, fun k hk1 hk2 => absurd hk2 (by omega)⟩

theorem collectFrom_mem (P : KeyPolicy K) [Inhabited V]
    (bucket : List (KeyValue K V)) :
    ∀ fuel pos, bucket.length - pos ≤ fuel →
      (bucket.length ≤ pos ∨ isOccupied P (slotAt P bucket pos) = true) →
      ∀ j, j ∈ collectFrom P bucket pos fuel ↔
        (pos ≤ j ∧ j < bucket.length ∧
          isOccupied P (slotAt P bucket j) = true) := by
  intro fuel
  induction fuel with
  | zero =>
    intro pos hf hcan j
    simp only [collectFrom, List.not_mem_nil, false_iff]
    rintro ⟨h1, h2, _⟩
    omega
  | succ f ih =>
    intro pos hf hcan j
    by_cases hlt : pos < bucket.length
    · have hoccpos : isOccupied P (slotAt P bucket pos) = true := by
        rcases hcan with h | h
        · omega
        · exact h
      rw [collectFrom, if_pos hlt]
      obtain ⟨ha1, ha2, ha3⟩ :=
        advance_spec P bucket
          (bucket.length - (pos + 1)) (pos + 1) le_rfl
      have hrec := ih (advance_past_empty_buckets P bucket (pos + 1))
        (by omega) ha2 j
      rw [List.mem_cons, hrec]
      constructor
      · rintro (rfl | ⟨hj1, hj2, hj3⟩)
        · exact ⟨le_rfl, hlt, hoccpos⟩
        · exact ⟨by omega, hj2, hj3⟩
      · rintro ⟨hj1, hj2, hj3⟩
        rcases Nat.eq_or_lt_of_le hj1 with heq | hgt
        · exact Or.inl heq.symm
        · right
          refine ⟨?_, hj2, hj3⟩
          by_contra hja
          push_neg at hja
          rw [ha3 j (by omega) hja] at hj3
          exact Bool.false_ne_true hj3
    · rw [collectFrom, if_neg hlt]
      simp only [List.not_mem_nil, false_iff]
      rintro ⟨h1, h2, _⟩
      omega

theorem collectFrom_nodup (P : KeyPolicy K) [Inhabited V]
    (bucket : List (KeyValue K V)) :
    ∀ fuel pos, bucket.length - pos ≤ fuel →
      (bucket.length ≤ pos ∨ isOccupied P (slotAt P bucket pos) = true) →
      (collectFrom P bucket pos fuel).Nodup := by
  intro fuel
  induction fuel with
  | zero =>
    intro pos hf hcan
    simp [collectFrom]
  | succ f ih =>
    intro pos hf hcan
    by_cases hlt : pos < bucket.length
    · rw [collectFrom, if_pos hlt]
      obtain ⟨ha1, ha2, ha3⟩ :=
        advance_spec P bucket
          (bucket.length - (pos + 1)) (pos + 1) le_rfl
      refine List.Nodup.cons ?_ (ih _ (by omega) ha2)
      intro hmem
      have := (collectFrom_mem P bucket f
        (advance_past_empty_buckets P bucket (pos + 1)) (by omega) ha2
        pos).mp hmem
      omega
    · rw [collectFrom, if_neg hlt]
      exact List.nodup_nil

/-- Counting occupied slots by index agrees with counting them by value. -/
theorem countP_range_slots (P : KeyPolicy K) [Inhabited V] :
    ∀ l : List (KeyValue K V),
      (List.range l.length).countP (fun j => isOccupied P (slotAt P l j)) =
        l.countP (fun s => isOccupied P s) := by
  intro l
  induction l with
  | nil => rfl
  | cons x xs ih =>
    rw [List.length_cons, List.range_succ_eq_map, List.countP_cons,
      List.countP_map]
    have hslot0 : slotAt P (x :: xs) 0 = x := rfl
    have hcomp : ((fun j => isOccupied P (slotAt P (x :: xs) j)) ∘ Nat.succ) =
        (fun j => isOccupied P (slotAt P xs j)) := by
      funext j
      rfl
    rw [hcomp, ih, List.countP_cons]
    simp only [hslot0]


/-! ### Whole-session insertion -/

theorem nb_bucket_le (c : Int) (h0 : 0 ≤ c) (hc : c ≤ 2 ^ 59) :
    nb_bucket c ≤ 2 ^ 60 := by
  unfold nb_bucket
  by_cases hc0 : c = 0
  · simp [hc0]
  · rw [if_neg hc0]
    have ht : (3 * c / 2 + 1).toNat < 2 ^ 60 := by omega
    rw [next_power_of_2_eq _ (by omega)]
    exact Nat.pow_le_pow_right (by norm_num) (Nat.size_le.mpr ht)

/-- Folding `insert(key, value)` over fresh, pairwise-distinct, non-sentinel
keys keeps the table well-formed and tombstone-free, keeps the capacity
below `2^60`, and accumulates exactly the inserted pairs among the Occupied
slots. -/
theorem foldl_insert_inv (P : KeyPolicy K) [Inhabited V] (L : LawfulPolicy P) :
    ∀ (suf : List (K × V)) (m : HashMap K V),
      Wf P m →
      (∀ j, j < m.bucket.length → isTombSlot P (slotAt P m.bucket j) = false) →
      m.bucket.length ≤ 2 ^ 60 →
      (m.bucket.filter (fun s => isOccupied P s)).length + suf.length ≤
        2 ^ 59 →
      (∀ kv ∈ suf, NonSentinel P kv.1) →
      ((m.bucket.filter (fun s => isOccupied P s)).map KeyValue.key ++
        suf.map Prod.fst).Nodup →
      Wf P (suf.foldl (fun acc kv => insertKV P acc kv.1 kv.2) m) ∧
      (∀ j, j < (suf.foldl (fun acc kv => insertKV P acc kv.1 kv.2)
          m).bucket.length →
        isTombSlot P (slotAt P (suf.foldl
          (fun acc kv => insertKV P acc kv.1 kv.2) m).bucket j) = false) ∧
      (suf.foldl (fun acc kv => insertKV P acc kv.1 kv.2) m).bucket.length ≤
        2 ^ 60 ∧
      ((suf.foldl (fun acc kv => insertKV P acc kv.1 kv.2) m).bucket.filter
        (fun s => isOccupied P s)).Perm
        (m.bucket.filter (fun s => isOccupied P s) ++
          suf.map (fun kv => (⟨kv.1, kv.2⟩ : KeyValue K V))) := by
  intro suf
  induction suf with
  | nil =>
    intro m hwf hnt hlen hcnt _ _
    refine ⟨hwf, hnt, hlen, ?_⟩
    simp only [List.foldl_nil, List.map_nil, List.append_nil]
    exact List.Perm.refl _
  | cons kv rest ih =>
    intro m hwf hnt hlen hcnt hsent hkeys
    simp only [List.foldl_cons]
    have hkv_sent : NonSentinel P kv.1 := hsent kv (by simp)
    have hkv_notin : kv.1 ∉
        (m.bucket.filter (fun s => isOccupied P s)).map KeyValue.key := by
      intro hmem
      have hdisj := List.disjoint_of_nodup_append hkeys
      exact hdisj hmem (by simp)
    have habsent : ∀ j, j < m.bucket.length →
        (slotAt P m.bucket j).key ≠ kv.1 := by
      intro j hj hcontra
      have hjocc : isOccupied P (slotAt P m.bucket j) = true := by
        rw [isOccupied_iff P L, hcontra]
        exact hkv_sent
      apply hkv_notin
      rw [List.mem_map]
      refine ⟨slotAt P m.bucket j, ?_, hcontra⟩
      rw [List.mem_filter]
      constructor
      · rw [slotAt_eq_getElem P m.bucket j hj]
        exact List.getElem_mem hj
      · exact hjocc
    obtain ⟨hcapw, hent, hdist, hplace⟩ := hwf
    have hspace : m.nb_entries ≥ (m.bucket.length : Int) ∨
        ∃ j, j < m.bucket.length ∧
          isEmptySlot P (slotAt P m.bucket j) = true := by
      by_cases hg : m.nb_entries ≥ (m.bucket.length : Int)
      · exact Or.inl hg
      · right
        apply exists_empty_slot P m.bucket hnt
        rw [hent] at hg
        omega
    obtain ⟨hwf', hmono', hent', hperm', hnt', hlen'⟩ :=
      insertKV_spec P L m kv.1 kv.2 ⟨hcapw, hent, hdist, hplace⟩ hkv_sent
        habsent (by omega) hspace
    have hcnt' : ((insertKV P m kv.1 kv.2).bucket.filter
        (fun s => isOccupied P s)).length =
        (m.bucket.filter (fun s => isOccupied P s)).length + 1 := by
      rw [hperm'.length_eq]
      simp
    have hlen2 : (insertKV P m kv.1 kv.2).bucket.length ≤ 2 ^ 60 := by
      rcases hlen' with h | h
      · omega
      · rw [h]
        apply nb_bucket_le m.nb_entries
        · rw [hent]
          positivity
        · rw [hent]
          simp only [List.length_cons] at hcnt
          have : (m.bucket.filter (fun s => isOccupied P s)).length ≤ 2 ^ 59 :=
            by omega
          exact_mod_cast this
    have hkeys2 : (((insertKV P m kv.1 kv.2).bucket.filter
        (fun s => isOccupied P s)).map KeyValue.key ++
        rest.map Prod.fst).Nodup := by
      have hpk : ((insertKV P m kv.1 kv.2).bucket.filter
          (fun s => isOccupied P s)).map KeyValue.key |>.Perm
          (kv.1 :: (m.bucket.filter (fun s => isOccupied P s)).map
            KeyValue.key) := by
        have := hperm'.map KeyValue.key
        simpa using this
      have hstep1 : (((insertKV P m kv.1 kv.2).bucket.filter
          (fun s => isOccupied P s)).map KeyValue.key ++
          rest.map Prod.fst).Perm
          ((kv.1 :: (m.bucket.filter (fun s => isOccupied P s)).map
            KeyValue.key) ++ rest.map Prod.fst) :=
        hpk.append_right _
      have hstep2 : ((kv.1 :: (m.bucket.filter (fun s => isOccupied P s)).map
          KeyValue.key) ++ rest.map Prod.fst).Perm
          ((m.bucket.filter (fun s => isOccupied P s)).map KeyValue.key ++
            kv.1 :: rest.map Prod.fst) := by
        exact List.perm_middle.symm
      apply ((hstep1.trans hstep2).nodup_iff).mpr
      simpa using hkeys
    obtain ⟨hwfr, hntr, hlenr, hpermr⟩ := ih (insertKV P m kv.1 kv.2) hwf'
      (hnt' hnt) hlen2 (by
        rw [hcnt']
        simp only [List.length_cons] at hcnt
        omega)
      (fun kv' hkv' => hsent kv' (by simp [hkv']))
      hkeys2
    refine ⟨hwfr, hntr, hlenr, ?_⟩
    apply hpermr.trans
    have hstep3 : ((insertKV P m kv.1 kv.2).bucket.filter
        (fun s => isOccupied P s) ++ rest.map
          (fun kv => (⟨kv.1, kv.2⟩ : KeyValue K V))).Perm
        ((⟨kv.1, kv.2⟩ :: m.bucket.filter (fun s => isOccupied P s)) ++
          rest.map (fun kv => (⟨kv.1, kv.2⟩ : KeyValue K V))) :=
      hperm'.append_right _
    apply hstep3.trans
    exact List.perm_middle.symm


/-! ### The claims -/

/-- C1: for every sequence of `insert(key, value)` operations with pairwise
distinct, non-sentinel keys under a lawful key policy (session length within
the 64-bit range of `il::int_t`), a subsequent `search(k)` for any inserted
key `k` reports found — a non-negative position — and the slot at that
position holds `k` with the exact value written for `k`. -/
theorem insert_search_roundtrip (P : KeyPolicy K) [Inhabited V]
    (L : LawfulPolicy P) (kvs : List (K × V)) (hlen : kvs.length ≤ 2 ^ 59)
    (hsent : ∀ kv ∈ kvs, NonSentinel P kv.1)
    (hnodup : (kvs.map Prod.fst).Nodup) :
    ∀ kv ∈ kvs, found (search P (insertAll P kvs) kv.1) = true ∧
      slotAt P (insertAll P kvs).bucket
        (search P (insertAll P kvs) kv.1).toNat = ⟨kv.1, kv.2⟩ := by
  have hfold := foldl_insert_inv P L kvs mkHashMap (mkHashMap_wf P)
    (by intro j hj; exact absurd hj (by simp [mkHashMap]))
    (by simp [mkHashMap])
    (by simpa [mkHashMap] using hlen)
    hsent
    (by simpa [mkHashMap] using hnodup)
  obtain ⟨hwfr, hntr, hlenr, hpermr⟩ := hfold
  have hpermr2 : ((insertAll P kvs).bucket.filter
      (fun s => isOccupied P s)).Perm
      (kvs.map (fun kv => (⟨kv.1, kv.2⟩ : KeyValue K V))) := by
    simpa [mkHashMap, insertAll] using hpermr
  intro kv hkv
  have hmemmap : (⟨kv.1, kv.2⟩ : KeyValue K V) ∈
      kvs.map (fun kv => (⟨kv.1, kv.2⟩ : KeyValue K V)) :=
    List.mem_map.mpr ⟨kv, hkv, rfl⟩
  have hmemf := hpermr2.mem_iff.mpr hmemmap
  obtain ⟨hmemb, hoccb⟩ := List.mem_filter.mp hmemf
  obtain ⟨j, hj, hja⟩ := List.getElem_of_mem hmemb
  have hwfr' : Wf P (insertAll P kvs) := hwfr
  rcases hwfr'.1 with h0 | ⟨e, he, hlen2⟩
  · rw [h0] at hj
    exact absurd hj (by omega)
  have hslot : slotAt P (insertAll P kvs).bucket j = ⟨kv.1, kv.2⟩ := by
    rw [slotAt_eq_getElem P _ j hj, hja]
  have hocc2 : isOccupied P (slotAt P (insertAll P kvs).bucket j) = true := by
    rw [hslot]
    exact hoccb
  have hkey2 : (slotAt P (insertAll P kvs).bucket j).key = kv.1 := by
    rw [hslot]
  have hs := search_present P L (insertAll P kvs) kv.1 e hlen2 hwfr'
    (hsent kv hkv) j hj hocc2 hkey2
  constructor
  · rw [hs, found]
    simp
  · rw [hs]
    have htn : ((j : Int)).toNat = j := rfl
    rw [htn]
    exact hslot

theorem insert_search_roundtrip_witness :
    found (search intPolicy
      (insertAll intPolicy [((3 : Int), (10 : Int)), (7, 20)]) 3) = true ∧
    slotAt intPolicy
      (insertAll intPolicy [((3 : Int), (10 : Int)), (7, 20)]).bucket
      (search intPolicy
        (insertAll intPolicy [((3 : Int), (10 : Int)), (7, 20)]) 3).toNat =
      ⟨3, 10⟩ :=
  insert_search_roundtrip intPolicy intPolicy_lawful
    [((3 : Int), (10 : Int)), (7, 20)] (by norm_num) (by decide) (by decide)
    (3, 10) (by simp)


/-- C2: for a non-sentinel key absent from a table of non-zero power-of-two
capacity, when the probe sequence reaches its first Empty slot at step `t`,
`search` returns a negative not-found code that decodes to the first
Tombstone of the probe sequence if one was passed, and to the Empty slot
otherwise; and `search` never stops early at a Tombstone — a live matching
key sitting behind tombstones in probe order is still found. -/
theorem search_notfound_tombstone_decode (P : KeyPolicy K) [Inhabited V]
    (L : LawfulPolicy P) :
    (∀ (m : HashMap K V) (key : K) (e t : Nat),
      m.bucket.length = 2 ^ e → NonSentinel P key →
      (∀ j, j < m.bucket.length → (slotAt P m.bucket j).key ≠ key) →
      t < 2 ^ e →
      isEmptySlot P (slotAt P m.bucket
        (probeIdx (2 ^ e) (homeIdx P (2 ^ e) key) t)) = true →
      (∀ s, s < t → isEmptySlot P (slotAt P m.bucket
        (probeIdx (2 ^ e) (homeIdx P (2 ^ e) key) s)) = false) →
      (search P m key < 0 ∧
        ((∀ s, s < t → isTombSlot P (slotAt P m.bucket
          (probeIdx (2 ^ e) (homeIdx P (2 ^ e) key) s)) = false) →
          search P m key =
            -(1 + (probeIdx (2 ^ e) (homeIdx P (2 ^ e) key) t : Int))) ∧
        (∀ t0, t0 < t → isTombSlot P (slotAt P m.bucket
            (probeIdx (2 ^ e) (homeIdx P (2 ^ e) key) t0)) = true →
          (∀ s, s < t0 → isTombSlot P (slotAt P m.bucket
            (probeIdx (2 ^ e) (homeIdx P (2 ^ e) key) s)) = false) →
          search P m key =
            -(1 + (probeIdx (2 ^ e) (homeIdx P (2 ^ e) key) t0 : Int))))) ∧
    (∀ (m : HashMap K V) (key : K) (e t : Nat),
      m.bucket.length = 2 ^ e → NonSentinel P key → t < 2 ^ e →
      (slotAt P m.bucket
        (probeIdx (2 ^ e) (homeIdx P (2 ^ e) key) t)).key = key →
      (∀ s, s < t →
        (slotAt P m.bucket
          (probeIdx (2 ^ e) (homeIdx P (2 ^ e) key) s)).key ≠ key ∧
        isEmptySlot P (slotAt P m.bucket
          (probeIdx (2 ^ e) (homeIdx P (2 ^ e) key) s)) = false) →
      search P m key =
        (probeIdx (2 ^ e) (homeIdx P (2 ^ e) key) t : Int)) := by
  constructor
  · intro m key e t hn hkey habsent ht hempty hfirst
    have hpre : ∀ s, s < t →
        (slotAt P m.bucket
          (probeIdx (2 ^ e) (homeIdx P (2 ^ e) key) s)).key ≠ key ∧
        isEmptySlot P (slotAt P m.bucket
          (probeIdx (2 ^ e) (homeIdx P (2 ^ e) key) s)) = false := by
      intro s hs
      refine ⟨?_, hfirst s hs⟩
      apply habsent
      rw [hn]
      exact probeIdx_lt e _ s (homeIdx_lt P e key)
    have hcase2 : (∀ s, s < t → isTombSlot P (slotAt P m.bucket
        (probeIdx (2 ^ e) (homeIdx P (2 ^ e) key) s)) = false) →
        search P m key =
          -(1 + (probeIdx (2 ^ e) (homeIdx P (2 ^ e) key) t : Int)) := by
      intro hnotomb
      rw [search_unfold P m key e hn]
      exact searchLoop_notfound_aux P L m.bucket key e
        (homeIdx P (2 ^ e) key) t ht hkey.1 hempty hpre hnotomb t 0 (by omega)
    have hcase3 : ∀ t0, t0 < t → isTombSlot P (slotAt P m.bucket
        (probeIdx (2 ^ e) (homeIdx P (2 ^ e) key) t0)) = true →
        (∀ s, s < t0 → isTombSlot P (slotAt P m.bucket
          (probeIdx (2 ^ e) (homeIdx P (2 ^ e) key) s)) = false) →
        search P m key =
          -(1 + (probeIdx (2 ^ e) (homeIdx P (2 ^ e) key) t0 : Int)) := by
      intro t0 ht0 htmb hfirst0
      rw [search_unfold P m key e hn]
      exact searchLoop_tomb_aux P L m.bucket key e (homeIdx P (2 ^ e) key)
        t t0 ht ht0 hkey.1 hempty htmb hfirst0 hpre t 0 (-1) (by omega)
        (Or.inl ⟨by omega, rfl⟩)
    refine ⟨?_, hcase2, hcase3⟩
    by_cases htex : ∃ s, s < t ∧ isTombSlot P (slotAt P m.bucket
        (probeIdx (2 ^ e) (homeIdx P (2 ^ e) key) s)) = true
    · obtain ⟨ht0, ht0T⟩ := Nat.find_spec htex
      have hres := hcase3 (Nat.find htex) ht0 ht0T (by
        intro s hs
        have := Nat.find_min htex hs
        rcases Bool.eq_false_or_eq_true (isTombSlot P (slotAt P m.bucket
          (probeIdx (2 ^ e) (homeIdx P (2 ^ e) key) s))) with hb | hb
        · exact absurd ⟨by omega, hb⟩ this
        · exact hb)
      rw [hres]
      have : (0 : Int) ≤
          (probeIdx (2 ^ e) (homeIdx P (2 ^ e) key) (Nat.find htex) : Int) :=
        Int.natCast_nonneg _
      omega
    · have hres := hcase2 (by
        intro s hs
        rcases Bool.eq_false_or_eq_true (isTombSlot P (slotAt P m.bucket
          (probeIdx (2 ^ e) (homeIdx P (2 ^ e) key) s))) with hb | hb
        · exact absurd ⟨s, hs, hb⟩ htex
        · exact hb)
      rw [hres]
      have : (0 : Int) ≤
          (probeIdx (2 ^ e) (homeIdx P (2 ^ e) key) t : Int) :=
        Int.natCast_nonneg _
      omega
  · intro m key e t hn hkey ht hmatch hpre
    rw [search_unfold P m key e hn]
    exact searchLoop_found_aux P L m.bucket key e (homeIdx P (2 ^ e) key) t
      ht hmatch hpre t 0 (by omega) (-1)

theorem search_notfound_tombstone_decode_witness :
    search intPolicy probeDemoTable 8 < 0 ∧
    search intPolicy probeDemoTable 8 =
      -(1 + (probeIdx (2 ^ 2) (homeIdx intPolicy (2 ^ 2) 8) 0 : Int)) ∧
    search intPolicy probeDemoTable 4 =
      (probeIdx (2 ^ 2) (homeIdx intPolicy (2 ^ 2) 4) 1 : Int) := by
  have h1 := (search_notfound_tombstone_decode intPolicy
    intPolicy_lawful).1 probeDemoTable 8 2 2 (by decide) (by decide)
    (by decide) (by decide) (by decide) (by decide)
  have h2 := (search_notfound_tombstone_decode intPolicy
    intPolicy_lawful).2 probeDemoTable 4 2 1 (by decide) (by decide)
    (by decide) (by decide) (by decide)
  exact ⟨h1.1, h1.2.2 0 (by decide) (by decide) (by decide), h2⟩

/-- C3: for every power-of-two capacity `2^e` and every starting index, the
triangular probe sequence of `search` (step starting at 1, increasing by 1,
indices masked by `capacity - 1`) visits all `2^e` slots, each exactly once,
within the first `2^e` probes. -/
theorem probe_sequence_permutation (e s : Nat) (hs : s < 2 ^ e) :
    (∀ a, a < 2 ^ e → ∀ b, b < 2 ^ e →
      probeIdx (2 ^ e) s a = probeIdx (2 ^ e) s b → a = b) ∧
    (∀ j, j < 2 ^ e → ∃ k, k < 2 ^ e ∧ probeIdx (2 ^ e) s k = j) :=
  ⟨fun a ha b hb => probeIdx_inj e s hs a b ha hb, probeIdx_surj e s hs⟩

theorem probe_sequence_permutation_witness :
    (∀ a, a < 2 ^ 3 → ∀ b, b < 2 ^ 3 →
      probeIdx (2 ^ 3) 5 a = probeIdx (2 ^ 3) 5 b → a = b) ∧
    (∀ j, j < 2 ^ 3 → ∃ k, k < 2 ^ 3 ∧ probeIdx (2 ^ 3) 5 k = j) :=
  probe_sequence_permutation 3 5 (by decide)


/-- C4 counterexample: on a capacity-1 table whose only slot is a Tombstone
(no Empty slot, `nb_entries_ = 0 < 1 = capacity`), `search` reports the
not-found-no-space code `-(1 + capacity)`, yet `insert` does not grow — the
guard `nb_entries_ >= bucket_.size()` is false — and decodes the write index
`i_local = capacity`, one past the last slot.  In the embedding the
out-of-bounds `List.set` is a no-op, so the storage is unchanged and the key
is nowhere in the table; in the C++ source the same index reaches
`bucket_[i_local]` outside the allocation. -/
theorem insert_no_space_out_of_bounds :
    (∀ j, j < tombSaturated1.bucket.length →
      isEmptySlot intPolicy (slotAt intPolicy tombSaturated1.bucket j) =
        false) ∧
    tombSaturated1.nb_entries < (tombSaturated1.bucket.length : Int) ∧
    search intPolicy tombSaturated1 7 =
      -(1 + (tombSaturated1.bucket.length : Int)) ∧
    (-(1 + search intPolicy tombSaturated1 7)).toNat =
      tombSaturated1.bucket.length ∧
    (insertKV intPolicy tombSaturated1 7 100).bucket.length =
      tombSaturated1.bucket.length ∧
    (insertKV intPolicy tombSaturated1 7 100).bucket =
      tombSaturated1.bucket := by
  decide

/-- C5: `grow` on a well-formed table, to a 64-bit power-of-two size able to
hold the live entries: the tombstone counter is reset to 0 and no Tombstone
slot remains, the live count is unchanged, the Occupied key/value pairs of
the new storage are exactly (a permutation of) those of the old storage, and
each old live pair is searchable in the new table with its value intact. -/
theorem grow_reclaims_tombstones (P : KeyPolicy K) [Inhabited V]
    (L : LawfulPolicy P) (m : HashMap K V) (e' n : Nat)
    (hne : n = 2 ^ e') (he' : e' < 64) (hwf : Wf P m)
    (hcnt : (m.bucket.filter (fun s => isOccupied P s)).length ≤ n) :
    (grow P m n).nb_tombstones = 0 ∧
    (grow P m n).nb_entries = m.nb_entries ∧
    (∀ j, j < (grow P m n).bucket.length →
      isTombSlot P (slotAt P (grow P m n).bucket j) = false) ∧
    ((grow P m n).bucket.filter (fun s => isOccupied P s)).Perm
      (m.bucket.filter (fun s => isOccupied P s)) ∧
    (∀ kv ∈ m.bucket.filter (fun s => isOccupied P s),
      found (search P (grow P m n) kv.key) = true ∧
      slotAt P (grow P m n).bucket
        (search P (grow P m n) kv.key).toNat = kv) := by
  obtain ⟨hlen, htmb, hnt, hwf', hperm, hent⟩ :=
    grow_spec P L m e' n hne he' hwf hcnt
  refine ⟨htmb, hent, ?_, hperm, ?_⟩
  · intro j hj
    rw [hlen] at hj
    exact hnt j hj
  · intro kv hkv
    have hkv' : kv ∈ (grow P m n).bucket.filter (fun s => isOccupied P s) :=
      hperm.mem_iff.mpr hkv
    obtain ⟨hmem, hocc⟩ := List.mem_filter.mp hkv'
    obtain ⟨j, hj, hget⟩ := List.mem_iff_getElem.mp hmem
    have hslot : slotAt P (grow P m n).bucket j = kv := by
      rw [slotAt_eq_getElem P _ j hj]
      exact hget
    have hkey : NonSentinel P kv.key := (isOccupied_iff P L kv).mp hocc
    have hsearch : search P (grow P m n) kv.key = (j : Int) := by
      apply search_present P L (grow P m n) kv.key e' (by rw [hlen, hne])
        hwf' hkey j hj
      · rw [hslot]
        exact hocc
      · rw [hslot]
    rw [hsearch]
    refine ⟨?_, ?_⟩
    · rw [found]
      simp
    · rw [Int.toNat_natCast]
      exact hslot

theorem grow_reclaims_tombstones_witness :
    (grow intPolicy growDemo 8).nb_tombstones = 0 ∧
    (grow intPolicy growDemo 8).nb_entries = growDemo.nb_entries ∧
    (∀ j, j < (grow intPolicy growDemo 8).bucket.length →
      isTombSlot intPolicy (slotAt intPolicy (grow intPolicy growDemo 8).bucket
        j) = false) ∧
    ((grow intPolicy growDemo 8).bucket.filter
      (fun s => isOccupied intPolicy s)).Perm
      (growDemo.bucket.filter (fun s => isOccupied intPolicy s)) ∧
    (∀ kv ∈ growDemo.bucket.filter (fun s => isOccupied intPolicy s),
      found (search intPolicy (grow intPolicy growDemo 8) kv.key) = true ∧
      slotAt intPolicy (grow intPolicy growDemo 8).bucket
        (search intPolicy (grow intPolicy growDemo 8) kv.key).toNat = kv) :=
  grow_reclaims_tombstones intPolicy intPolicy_lawful growDemo 3 8
    (by decide) (by decide) (by decide) (by decide)


/-- C6 counterexample: a reachable state violating
`liveCount + tombstoneCount <= capacity`.  Four insert/erase cycles on keys
hashing to bucket 0 each increment `nb_tombstones_`, but the inserts that
reuse the Tombstone slot never decrement it; after a fifth insert the
counters read 1 live + 4 tombstones = 5 on a capacity-4 table. -/
theorem size_tombstone_capacity_overflow :
    (tombOverCount.bucket.length : Int) = 4 ∧
    tombOverCount.nb_entries = 1 ∧
    tombOverCount.nb_tombstones = 4 ∧
    ¬(tombOverCount.nb_entries + tombOverCount.nb_tombstones ≤
        (tombOverCount.bucket.length : Int)) := by
  decide

/-- C6 (amended): the capacity is 0 or a power of two representable in 64
bits and `size() <= capacity` on every well-formed table; both constructors
build well-formed tables; `insert` preserves well-formedness and never
shrinks the capacity; `erase` preserves well-formedness and the capacity;
`grow` preserves well-formedness.  (The spec's stronger
`liveCount + tombstoneCount <= capacity` is refuted by
the tombstone-counter overcount above.) -/
theorem capacity_invariants (P : KeyPolicy K) [Inhabited V]
    (L : LawfulPolicy P) :
    (∀ m : HashMap K V, Wf P m →
      (capacity m = 0 ∨ ∃ e < 64, capacity m = ((2 ^ e : Nat) : Int)) ∧
      size m ≤ capacity m) ∧
    Wf P (mkHashMap : HashMap K V) ∧
    (∀ c : Int, 0 ≤ c → c < 2 ^ 62 →
      Wf P (mkHashMapEntries P c : HashMap K V)) ∧
    (∀ (m : HashMap K V) (key : K) (value : V), Wf P m → NonSentinel P key →
      (∀ j, j < m.bucket.length → (slotAt P m.bucket j).key ≠ key) →
      m.bucket.length < 2 ^ 62 →
      (m.nb_entries ≥ (m.bucket.length : Int) ∨
        ∃ j, j < m.bucket.length ∧
          isEmptySlot P (slotAt P m.bucket j) = true) →
      Wf P (insertKV P m key value) ∧
      capacity m ≤ capacity (insertKV P m key value)) ∧
    (∀ (m : HashMap K V) (i : Int), Wf P m → i.toNat < m.bucket.length →
      isOccupied P (slotAt P m.bucket i.toNat) = true →
      Wf P (erase P m i) ∧ capacity (erase P m i) = capacity m) ∧
    (∀ (m : HashMap K V) (e' n : Nat), n = 2 ^ e' → e' < 64 → Wf P m →
      (m.bucket.filter (fun s => isOccupied P s)).length ≤ n →
      Wf P (grow P m n)) := by
  refine ⟨?_, mkHashMap_wf P, ?_, ?_, ?_, ?_⟩
  · intro m hwf
    obtain ⟨hcap, hent, _, _⟩ := hwf
    constructor
    · rcases hcap with h | ⟨e, he, hl⟩
      · left
        rw [capacity, h]
        rfl
      · right
        exact ⟨e, he, by rw [capacity, hl]⟩
    · rw [size, capacity, hent]
      exact_mod_cast List.length_filter_le _ _
  · intro c h0 hc
    exact mkHashMapEntries_wf P L c h0 hc
  · intro m key value hwf hkey habsent hcap hspace
    obtain ⟨hwf', hmono, _, _, _, _⟩ :=
      insertKV_spec P L m key value hwf hkey habsent hcap hspace
    exact ⟨hwf', by rw [capacity, capacity]; exact_mod_cast hmono⟩
  · intro m i hwf hi hocc
    refine ⟨erase_wf P L m i hwf hi hocc, ?_⟩
    have hlen : (erase P m i).bucket.length = m.bucket.length := by
      show (m.bucket.set i.toNat _).length = m.bucket.length
      exact List.length_set m.bucket _ _
    rw [capacity, capacity, hlen]
  · intro m e' n hne he' hwf hcnt
    exact (grow_spec P L m e' n hne he' hwf hcnt).2.2.2.1


theorem capacity_invariants_witness :
    (∀ m : HashMap Int Int, Wf intPolicy m →
      (capacity m = 0 ∨ ∃ e < 64, capacity m = ((2 ^ e : Nat) : Int)) ∧
      size m ≤ capacity m) ∧
    Wf intPolicy (mkHashMap : HashMap Int Int) ∧
    (∀ c : Int, 0 ≤ c → c < 2 ^ 62 →
      Wf intPolicy (mkHashMapEntries intPolicy c : HashMap Int Int)) ∧
    (∀ (m : HashMap Int Int) (key value : Int), Wf intPolicy m →
      NonSentinel intPolicy key →
      (∀ j, j < m.bucket.length → (slotAt intPolicy m.bucket j).key ≠ key) →
      m.bucket.length < 2 ^ 62 →
      (m.nb_entries ≥ (m.bucket.length : Int) ∨
        ∃ j, j < m.bucket.length ∧
          isEmptySlot intPolicy (slotAt intPolicy m.bucket j) = true) →
      Wf intPolicy (insertKV intPolicy m key value) ∧
      capacity m ≤ capacity (insertKV intPolicy m key value)) ∧
    (∀ (m : HashMap Int Int) (i : Int), Wf intPolicy m →
      i.toNat < m.bucket.length →
      isOccupied intPolicy (slotAt intPolicy m.bucket i.toNat) = true →
      Wf intPolicy (erase intPolicy m i) ∧
      capacity (erase intPolicy m i) = capacity m) ∧
    (∀ (m : HashMap Int Int) (e' n : Nat), n = 2 ^ e' → e' < 64 →
      Wf intPolicy m →
      (m.bucket.filter (fun s => isOccupied intPolicy s)).length ≤ n →
      Wf intPolicy (grow intPolicy m n)) :=
  capacity_invariants intPolicy intPolicy_lawful


/-- C7: `erase(i)` on an Occupied position overwrites slot `i`'s key with
the tombstone sentinel and its value with `V{}`, decrements `nb_entries_`,
increments `nb_tombstones_`, and leaves every other slot and the capacity
unchanged (the storage is updated in place — no reallocation). -/
theorem erase_effects (P : KeyPolicy K) [Inhabited V] (m : HashMap K V)
    (i : Int) (hi : i.toNat < m.bucket.length)
    (_hocc : isOccupied P (slotAt P m.bucket i.toNat) = true) :
    (erase P m i).bucket.length = m.bucket.length ∧
    (slotAt P (erase P m i).bucket i.toNat).key = P.tombstone_key ∧
    (slotAt P (erase P m i).bucket i.toNat).value = (default : V) ∧
    (∀ j, j < m.bucket.length → j ≠ i.toNat →
      slotAt P (erase P m i).bucket j = slotAt P m.bucket j) ∧
    (erase P m i).nb_entries = m.nb_entries - 1 ∧
    (erase P m i).nb_tombstones = m.nb_tombstones + 1 := by
  obtain ⟨hlen, hset, hframe, hent, htmb⟩ := erase_frame P m i hi
  exact ⟨hlen, by rw [hset], by rw [hset], hframe, hent, htmb⟩

theorem erase_effects_witness :
    (erase intPolicy eraseDemo 0).bucket.length = eraseDemo.bucket.length ∧
    (slotAt intPolicy (erase intPolicy eraseDemo 0).bucket
      (0 : Int).toNat).key = intPolicy.tombstone_key ∧
    (slotAt intPolicy (erase intPolicy eraseDemo 0).bucket
      (0 : Int).toNat).value = (default : Int) ∧
    (∀ j, j < eraseDemo.bucket.length → j ≠ (0 : Int).toNat →
      slotAt intPolicy (erase intPolicy eraseDemo 0).bucket j =
        slotAt intPolicy eraseDemo.bucket j) ∧
    (erase intPolicy eraseDemo 0).nb_entries = eraseDemo.nb_entries - 1 ∧
    (erase intPolicy eraseDemo 0).nb_tombstones =
      eraseDemo.nb_tombstones + 1 :=
  erase_effects intPolicy eraseDemo 0 (by decide) (by decide)


/-- C8 counterexample: `erase` contains no assertion.  Erasing position 0 of
a freshly constructed capacity-1 table — a position that is Empty, not
Occupied — is not rejected in the checked build: the operation proceeds and
corrupts the state, driving `nb_entries_` to `-1`. -/
theorem erase_unchecked_counterexample :
    isOccupied intPolicy (slotAt intPolicy
      (mkHashMapEntries intPolicy 0 : HashMap Int Int).bucket 0) = false ∧
    eraseChecked intPolicy (mkHashMapEntries intPolicy 0 : HashMap Int Int)
      0 ≠ none ∧
    eraseChecked intPolicy (mkHashMapEntries intPolicy 0 : HashMap Int Int)
      0 = some (erase intPolicy (mkHashMapEntries intPolicy 0) 0) ∧
    (erase intPolicy (mkHashMapEntries intPolicy 0 : HashMap Int Int)
      0).nb_entries = -1 := by
  decide

/-- C8 (amended): the assertions that are present fire before any mutation —
`search` and `insert(key, value)` reject a sentinel-equal key, the
`insert(key, value)` overload rejects a key already present, and the
positional `insert` rejects a found (non-negative) position; but `erase`
contains no assertion at all, so erasing a non-Occupied position is never
detected (counterexample above). -/
theorem assertion_checks (P : KeyPolicy K) [Inhabited V]
    (L : LawfulPolicy P) :
    (∀ (m : HashMap K V) (key : K),
      key = P.empty_key ∨ key = P.tombstone_key →
      searchChecked P m key = none) ∧
    (∀ (m : HashMap K V) (key : K) (value : V),
      key = P.empty_key ∨ key = P.tombstone_key →
      insertKVChecked P m key value = none) ∧
    (∀ (m : HashMap K V) (key : K) (value : V),
      found (search P m key) = true →
      insertKVChecked P m key value = none) ∧
    (∀ (m : HashMap K V) (key : K) (value : V) (i : Int), found i = true →
      insertAtChecked P m key value i = none) ∧
    (∀ (m : HashMap K V) (i : Int),
      eraseChecked P m i = some (erase P m i)) := by
  have hsc : ∀ (m : HashMap K V) (key : K),
      key = P.empty_key ∨ key = P.tombstone_key →
      searchChecked P m key = none := by
    intro m key h
    rcases h with h | h
    · have hb : P.is_equal key P.empty_key = true := (L.eq_iff _ _).mpr h
      simp [searchChecked, hb]
    · have hb1 : P.is_equal key P.empty_key = false := by
        rcases Bool.eq_false_or_eq_true (P.is_equal key P.empty_key) with
          hb | hb
        · exact absurd (((L.eq_iff _ _).mp hb).symm.trans h) L.sentinels_ne
        · exact hb
      have hb2 : P.is_equal key P.tombstone_key = true := (L.eq_iff _ _).mpr h
      simp [searchChecked, hb1, hb2]
  refine ⟨hsc, ?_, ?_, ?_, ?_⟩
  · intro m key value h
    rw [insertKVChecked, hsc m key h]
  · intro m key value hf
    by_cases hs : key = P.empty_key ∨ key = P.tombstone_key
    · rw [insertKVChecked, hsc m key hs]
    · push_neg at hs
      have hb1 : P.is_equal key P.empty_key = false := by
        rcases Bool.eq_false_or_eq_true (P.is_equal key P.empty_key) with
          hb | hb
        · exact absurd ((L.eq_iff _ _).mp hb) hs.1
        · exact hb
      have hb2 : P.is_equal key P.tombstone_key = false := by
        rcases Bool.eq_false_or_eq_true (P.is_equal key P.tombstone_key) with
          hb | hb
        · exact absurd ((L.eq_iff _ _).mp hb) hs.2
        · exact hb
      have hscv : searchChecked P m key = some (search P m key) := by
        simp [searchChecked, hb1, hb2]
      rw [insertKVChecked, hscv]
      simp [hf]
  · intro m key value i hf
    simp [insertAtChecked, hf]
  · intro m i
    rfl

theorem assertion_checks_witness :
    (∀ (m : HashMap Int Int) (key : Int),
      key = intPolicy.empty_key ∨ key = intPolicy.tombstone_key →
      searchChecked intPolicy m key = none) ∧
    (∀ (m : HashMap Int Int) (key value : Int),
      key = intPolicy.empty_key ∨ key = intPolicy.tombstone_key →
      insertKVChecked intPolicy m key value = none) ∧
    (∀ (m : HashMap Int Int) (key value : Int),
      found (search intPolicy m key) = true →
      insertKVChecked intPolicy m key value = none) ∧
    (∀ (m : HashMap Int Int) (key value : Int) (i : Int), found i = true →
      insertAtChecked intPolicy m key value i = none) ∧
    (∀ (m : HashMap Int Int) (i : Int),
      eraseChecked intPolicy m i = some (erase intPolicy m i)) :=
  assertion_checks intPolicy intPolicy_lawful


/-- C9: on a well-formed table, iterating from `begin()` to `end()` yields
exactly `size()` slot indices, each of an Occupied slot, with no index
repeated, and every Occupied slot appears; when `size()` is 0, `begin()`
equals `end()` (the index one past the storage). -/
theorem iteration_complete (P : KeyPolicy K) [Inhabited V] (m : HashMap K V)
    (hwf : Wf P m) :
    (size m = 0 → beginIdx P m = m.bucket.length) ∧
    ((iterList P m).length : Int) = size m ∧
    (∀ p ∈ iterList P m, p < m.bucket.length ∧
      isOccupied P (slotAt P m.bucket p) = true) ∧
    (iterList P m).Nodup ∧
    (∀ j, j < m.bucket.length →
      isOccupied P (slotAt P m.bucket j) = true → j ∈ iterList P m) := by
  obtain ⟨hcap, hent, hdist, hplace⟩ := hwf
  have hfuel : m.bucket.length - beginIdx P m ≤ m.bucket.length + 1 := by
    omega
  have hcanon : m.bucket.length ≤ beginIdx P m ∨
      isOccupied P (slotAt P m.bucket (beginIdx P m)) = true := by
    by_cases h0 : m.nb_entries = 0
    · left
      simp [beginIdx, h0]
    · have hb : (m.nb_entries == 0) = false := by simp [h0]
      have hbegin : beginIdx P m = beginScan P m.bucket 0 := by
        simp [beginIdx, hb]
      rw [hbegin]
      exact (beginScan_spec P m.bucket (m.bucket.length - 0) 0 le_rfl).1
  have hmem : ∀ j, j ∈ iterList P m ↔
      (beginIdx P m ≤ j ∧ j < m.bucket.length ∧
        isOccupied P (slotAt P m.bucket j) = true) := by
    intro j
    exact collectFrom_mem P m.bucket (m.bucket.length + 1) (beginIdx P m)
      hfuel hcanon j
  have hnodup : (iterList P m).Nodup :=
    collectFrom_nodup P m.bucket (m.bucket.length + 1) (beginIdx P m)
      hfuel hcanon
  have hge : ∀ j, j < m.bucket.length →
      isOccupied P (slotAt P m.bucket j) = true → beginIdx P m ≤ j := by
    intro j hj hocc
    by_cases h0 : m.nb_entries = 0
    · exfalso
      have hlen0 : ((m.bucket.filter (fun s => isOccupied P s)).length :
          Int) = 0 := by
        rw [← hent]
        exact h0
      have hlen0' : (m.bucket.filter (fun s => isOccupied P s)).length = 0 :=
        by exact_mod_cast hlen0
      have hmemb : slotAt P m.bucket j ∈
          m.bucket.filter (fun s => isOccupied P s) := by
        apply List.mem_filter.mpr
        refine ⟨?_, hocc⟩
        rw [slotAt_eq_getElem P _ j hj]
        exact List.getElem_mem _
      rw [List.length_eq_zero] at hlen0'
      rw [hlen0'] at hmemb
      exact absurd hmemb (List.not_mem_nil _)
    · have hb : (m.nb_entries == 0) = false := by simp [h0]
      have hbegin : beginIdx P m = beginScan P m.bucket 0 := by
        simp [beginIdx, hb]
      rw [hbegin]
      by_contra hlt
      push_neg at hlt
      have hfalse := (beginScan_spec P m.bucket (m.bucket.length - 0) 0
        le_rfl).2 j (Nat.zero_le j) hlt
      rw [hfalse] at hocc
      exact Bool.false_ne_true hocc
  have hperm : (iterList P m).Perm
      ((List.range m.bucket.length).filter
        (fun j => isOccupied P (slotAt P m.bucket j))) := by
    apply (List.perm_ext_iff_of_nodup hnodup
      ((List.nodup_range _).filter _)).mpr
    intro j
    rw [hmem j, List.mem_filter, List.mem_range]
    constructor
    · rintro ⟨h1, h2, h3⟩
      exact ⟨h2, h3⟩
    · rintro ⟨h2, h3⟩
      exact ⟨hge j h2 h3, h2, h3⟩
  have hlen_eq : (iterList P m).length =
      (m.bucket.filter (fun s => isOccupied P s)).length := by
    rw [hperm.length_eq, ← List.countP_eq_length_filter,
      countP_range_slots P m.bucket]
    exact List.countP_eq_length_filter _ _
  refine ⟨?_, ?_, ?_, hnodup, ?_⟩
  · intro h0
    have h0' : m.nb_entries = 0 := h0
    simp [beginIdx, h0']
  · rw [hlen_eq]
    show _ = m.nb_entries
    rw [hent]
  · intro p hp
    exact ((hmem p).mp hp).2
  · intro j hj hocc
    exact (hmem j).mpr ⟨hge j hj hocc, hj, hocc⟩

theorem iteration_complete_witness :
    (size iterDemo = 0 → beginIdx intPolicy iterDemo =
      iterDemo.bucket.length) ∧
    ((iterList intPolicy iterDemo).length : Int) = size iterDemo ∧
    (∀ p ∈ iterList intPolicy iterDemo, p < iterDemo.bucket.length ∧
      isOccupied intPolicy (slotAt intPolicy iterDemo.bucket p) = true) ∧
    (iterList intPolicy iterDemo).Nodup ∧
    (∀ j, j < iterDemo.bucket.length →
      isOccupied intPolicy (slotAt intPolicy iterDemo.bucket j) = true →
      j ∈ iterList intPolicy iterDemo) :=
  iteration_complete intPolicy iterDemo (by decide)


/-- C10: a freshly constructed table is entirely Empty with default values —
every slot of `HashMap(nb_entries)` is the default `KeyValue` (whose key is
the empty sentinel), both counters are 0 (also for the default constructor),
`search` reports not-found (the code decoding to the key's home bucket) for
every non-sentinel key, and the fresh storage `grow` allocates before
re-insertion is likewise all default slots. -/
theorem fresh_table_empty (P : KeyPolicy K) [Inhabited V] (L : LawfulPolicy P)
    (c : Int) (h0 : 0 ≤ c) (hc : c < 2 ^ 62) (key : K)
    (hkey : NonSentinel P key) :
    (∀ j, j < (mkHashMapEntries P c : HashMap K V).bucket.length →
      slotAt P (mkHashMapEntries P c : HashMap K V).bucket j = emptySlot P) ∧
    (emptySlot P : KeyValue K V).key = P.empty_key ∧
    size (mkHashMapEntries P c : HashMap K V) = 0 ∧
    (mkHashMapEntries P c : HashMap K V).nb_tombstones = 0 ∧
    size (mkHashMap : HashMap K V) = 0 ∧
    (mkHashMap : HashMap K V).nb_tombstones = 0 ∧
    search P (mkHashMap : HashMap K V) key = -1 ∧
    search P (mkHashMapEntries P c : HashMap K V) key =
      -(1 + (homeIdx P (nb_bucket c) key : Int)) ∧
    found (search P (mkHashMapEntries P c : HashMap K V) key) = false ∧
    (∀ n : Nat, grow P (mkHashMap : HashMap K V) n =
      { bucket := List.replicate n (emptySlot P), nb_entries := 0,
        nb_tombstones := 0 }) := by
  obtain ⟨e, he, hn⟩ := nb_bucket_pow c h0 hc
  have hlen : (mkHashMapEntries P c : HashMap K V).bucket.length =
      nb_bucket c := List.length_replicate _ _
  have hslot : ∀ j, j < (mkHashMapEntries P c : HashMap K V).bucket.length →
      slotAt P (mkHashMapEntries P c : HashMap K V).bucket j = emptySlot P := by
    intro j hj
    rw [slotAt_eq_getElem P _ j hj]
    exact List.getElem_replicate _ _
  have hsearch : search P (mkHashMapEntries P c : HashMap K V) key =
      -(1 + (homeIdx P (nb_bucket c) key : Int)) := by
    have hn' : (mkHashMapEntries P c : HashMap K V).bucket.length = 2 ^ e :=
      by rw [hlen, hn]
    rw [search_unfold P _ key e hn']
    have hhome : homeIdx P (2 ^ e) key < 2 ^ e := homeIdx_lt P e key
    have hres := searchLoop_notfound_aux P L
      (mkHashMapEntries P c : HashMap K V).bucket key e
      (homeIdx P (2 ^ e) key) 0 (Nat.pos_pow_of_pos e (by norm_num)) hkey.1
      (by
        have hp0 : probeIdx (2 ^ e) (homeIdx P (2 ^ e) key) 0 =
            homeIdx P (2 ^ e) key := rfl
        rw [hp0, hslot _ (by rw [hn']; exact hhome), isEmptySlot]
        exact (L.eq_iff _ _).mpr rfl)
      (fun s hs => absurd hs (Nat.not_lt_zero s))
      (fun s hs => absurd hs (Nat.not_lt_zero s)) 0 0 (by omega)
    have hres' : searchLoop P (mkHashMapEntries P c : HashMap K V).bucket key
        (2 ^ e) (homeIdx P (2 ^ e) key) (-1) 1 (2 ^ e) =
        -(1 + (homeIdx P (2 ^ e) key : Int)) := hres
    rw [hn]
    exact hres'
  refine ⟨hslot, rfl, rfl, rfl, rfl, rfl, rfl, hsearch, ?_, fun n => rfl⟩
  rw [found, hsearch, decide_eq_false]
  have : (0 : Int) ≤ (homeIdx P (nb_bucket c) key : Int) :=
    Int.natCast_nonneg _
  omega

theorem fresh_table_empty_witness :
    (∀ j, j < (mkHashMapEntries intPolicy 3 : HashMap Int Int).bucket.length →
      slotAt intPolicy (mkHashMapEntries intPolicy 3 :
        HashMap Int Int).bucket j = emptySlot intPolicy) ∧
    (emptySlot intPolicy : KeyValue Int Int).key = intPolicy.empty_key ∧
    size (mkHashMapEntries intPolicy 3 : HashMap Int Int) = 0 ∧
    (mkHashMapEntries intPolicy 3 : HashMap Int Int).nb_tombstones = 0 ∧
    size (mkHashMap : HashMap Int Int) = 0 ∧
    (mkHashMap : HashMap Int Int).nb_tombstones = 0 ∧
    search intPolicy (mkHashMap : HashMap Int Int) 7 = -1 ∧
    search intPolicy (mkHashMapEntries intPolicy 3 : HashMap Int Int) 7 =
      -(1 + (homeIdx intPolicy (nb_bucket 3) 7 : Int)) ∧
    found (search intPolicy (mkHashMapEntries intPolicy 3 :
      HashMap Int Int) 7) = false ∧
    (∀ n : Nat, grow intPolicy (mkHashMap : HashMap Int Int) n =
      { bucket := List.replicate n (emptySlot intPolicy), nb_entries := 0,
        nb_tombstones := 0 }) :=
  fresh_table_empty intPolicy intPolicy_lawful 3 (by decide) (by decide) 7
    (by decide)

end IL
